import Mathlib

/-!
Verification of the cubed core (plan-level ops, blockwise chunk derivation,
chunk reconciliation, rechunk, and the plan-graph fusion optimizer) against
its natural-language specification.

Code under `src/cubed/core/ops.py` is embedded directly.  The primitive
blockwise/rechunk modules and the fusion optimizer (`cubed/core/optimization.py`,
`cubed/primitive/*.py`, `cubed/utils.py`) are not part of the provided sources;
where a claim depends on them they are modelled from the spec (and from the
behaviour pinned down by the repository's own tests), as marked in each
doc comment.
-/

set_option autoImplicit false

namespace Cubed

/-! ## Association lists (Python `dict` model)

Python dictionaries keyed by dimension labels are modelled as association
lists with first-match lookup; `dictSet` overrides a key.
-/

def alookup {α : Type} (j : Nat) : List (Nat × α) → Option α
  | [] => none
  | (k, v) :: rest => if k = j then some v else alookup j rest

@[simp] theorem alookup_nil {α : Type} (j : Nat) : alookup j ([] : List (Nat × α)) = none := rfl

@[simp] theorem alookup_cons {α : Type} (j k : Nat) (v : α) (rest : List (Nat × α)) :
    alookup j ((k, v) :: rest) = if k = j then some v else alookup j rest := rfl

/-- Remove all bindings for a key. -/
def dictErase {α : Type} (k : Nat) : List (Nat × α) → List (Nat × α)
  | [] => []
  | p :: rest => if p.1 = k then dictErase k rest else p :: dictErase k rest

/-- Override a key in a Python-dict model: new binding shadows any old one. -/
def dictSet {α : Type} (m : List (Nat × α)) (k : Nat) (v : α) : List (Nat × α) :=
  (k, v) :: dictErase k m

theorem alookup_dictErase_ne {α : Type} (j k : Nat) (m : List (Nat × α)) (h : j ≠ k) :
    alookup j (dictErase k m) = alookup j m := by
  induction m with
  | nil => rfl
  | cons p rest ih =>
    cases p with
    | mk k1 v1 =>
      by_cases hpk : k1 = k
      · have hkj : ¬ (k = j) := fun hh => h hh.symm
        simp [dictErase, hpk, alookup, hkj, ih]
      · by_cases hj : k1 = j
        · simp [dictErase, hpk, alookup, hj, h]
        · simp [dictErase, hpk, alookup, hj, ih]

theorem alookup_dictSet_self {α : Type} (m : List (Nat × α)) (k : Nat) (v : α) :
    alookup k (dictSet m k v) = some v := by
  simp [dictSet, alookup]

theorem alookup_dictSet_ne {α : Type} (m : List (Nat × α)) (j k : Nat) (v : α) (h : j ≠ k) :
    alookup j (dictSet m k v) = alookup j m := by
  have hk : ¬ (k = j) := fun hj => h hj.symm
  simp only [dictSet, alookup, if_neg hk]
  exact alookup_dictErase_ne j k m h

/-- All-some simultaneous lookup (`Option`-valued), used instead of `mapM`
so that all lemmas are under our control. -/
def lookupAll {α : Type} (m : List (Nat × α)) : List Nat → Option (List α)
  | [] => some []
  | a :: rest =>
    match alookup a m, lookupAll m rest with
    | some v, some vs => some (v :: vs)
    | _, _ => none

/-! ## Array nodes

The plan-level view of an array (`cubed.core.array.Array` as consumed by
`ops.py`): a name, a shape and a normalized chunk structure (per-dimension
ordered sequence of block sizes).
-/

structure ZArr where
  name : Nat
  shape : List Nat
  chunks : List (List Nat)
  deriving Repr, DecidableEq

/-- Python exceptions raised by the embedded code. -/
inductive PyError where
  | valueError (msg : String)
  | notImplementedError (msg : String)
  | keyError (label : Nat)
  | indexError
  | axisError
  deriving Repr, DecidableEq

/-! ## `blockwise` output-chunk derivation (`src/cubed/core/ops.py`, lines 39-108)

`blockwise(func, out_ind, *args, dtype, adjust_chunks, new_axes, align_arrays)`
receives alternating (array, index-sequence) arguments; we model them as a list
of pairs, with `none` standing for Python `None` indices.  Dimension labels are
natural numbers.
-/

/-- `{a for arg in args[1::2] if arg is not None for a in arg}` -/
def knownLabels (argpairs : List (ZArr × Option (List Nat))) : List Nat :=
  (argpairs.map (fun p => p.2.getD [])).flatten

/-- `new = set(out_ind) - {labels of non-None index args} - set(new_axes)`
(`ops.py` lines 56-60). -/
def unknownDims (argpairs : List (ZArr × Option (List Nat))) (out_ind : List Nat)
    (new_axes : List (Nat × List Nat)) : List Nat :=
  out_ind.filter (fun i =>
    !((knownLabels argpairs).contains i) && !((new_axes.map Prod.fst).contains i))

/-- One update of the `chunkss` dict in the `align_arrays=False` branch:
`if i not in chunkss or len(c) > len(chunkss[i]): chunkss[i] = c`
(`ops.py` lines 79-81). -/
def chunkssUpd (m : List (Nat × List Nat)) (i : Nat) (c : List Nat) :
    List (Nat × List Nat) :=
  match alookup i m with
  | none => dictSet m i c
  | some c0 => if c0.length < c.length then dictSet m i c else m

/-- `for c, i in zip(arg_chunks, ind): ...` for one (array, index) pair.
Our `ZArr.chunks` is already normalized, so `normalize_chunks` is the
identity here. -/
def chunkssOfPair (m : List (Nat × List Nat)) (a : ZArr) (ind : List Nat) :
    List (Nat × List Nat) :=
  (a.chunks.zip ind).foldl (fun m ci => chunkssUpd m ci.2 ci.1) m

/-- The `align_arrays=False` loop over `arginds` (`ops.py` lines 67-81).
Pairs whose index is `None` contribute nothing. -/
def buildChunkssNoAlign (argpairs : List (ZArr × Option (List Nat))) :
    List (Nat × List Nat) :=
  argpairs.foldl
    (fun m p =>
      match p.2 with
      | some ind => chunkssOfPair m p.1 ind
      | none => m)
    []

/-- `for k, v in new_axes.items(): chunkss[k] = v` (`ops.py` lines 83-86);
sizes are already tuples in our model. -/
def applyNewAxes (m : List (Nat × List Nat)) (new_axes : List (Nat × List Nat)) :
    List (Nat × List Nat) :=
  new_axes.foldl (fun m kv => dictSet m kv.1 kv.2) m

/-- `chunks = [chunkss[i] for i in out_ind]` (`ops.py` line 88); a missing
label would be a Python `KeyError`. -/
def lookupLabels (m : List (Nat × List Nat)) : List Nat → Except PyError (List (List Nat))
  | [] => .ok []
  | i :: rest =>
    match alookup i m with
    | none => .error (.keyError i)
    | some c =>
      match lookupLabels m rest with
      | .ok cs => .ok (c :: cs)
      | .error e => .error e

/-- The `adjust_chunks` override for one output dimension, as a tagged union
(callable / integer constant / explicit sequence / anything else), mirroring
the `callable` / `Integral` / `(tuple, list)` / `else` dispatch of
`ops.py` lines 92-106. -/
inductive AdjustVal where
  | call (f : Nat → Nat)
  | const (k : Nat)
  | seq (s : List Nat)
  | other

/-- Application of one `adjust_chunks` entry to dimension `i` whose current
chunk sequence is `c` (`ops.py` lines 92-106). -/
def adjustDim (i : Nat) (v : AdjustVal) (c : List Nat) : Except PyError (List Nat) :=
  match v with
  | .call f => .ok (c.map f)
  | .const k => .ok (c.map (fun _ => k))
  | .seq s =>
    if s.length ≠ c.length then
      let nb := c.length
      let ns := s.length
      .error (.valueError
        s!"Dimension {i} has {nb} blocks, adjust_chunks specified with {ns} blocks")
    else .ok s
  | .other => .error (.notImplementedError "adjust_chunks values must be callable, int, or tuple")

/-- `for i, ind in enumerate(out_ind): if ind in adjust_chunks: ...`
(`ops.py` lines 89-106).  `chunks` has one entry per `out_ind` entry by
construction; a longer `out_ind` tail with no chunks left cannot occur. -/
def applyAdjustChunks (adjust : List (Nat × AdjustVal)) :
    List Nat → List (List Nat) → Nat → Except PyError (List (List Nat))
  | [], _, _ => .ok []
  | _ :: _, [], _ => .ok []
  | ind :: inds, c :: cs, i =>
    let step : Except PyError (List Nat) :=
      match alookup ind adjust with
      | none => .ok c
      | some v => adjustDim i v c
    match step with
    | .error e => .error e
    | .ok c1 =>
      match applyAdjustChunks adjust inds cs (i + 1) with
      | .error e => .error e
      | .ok rest => .ok (c1 :: rest)

/-- The message of the `raise ValueError("Unknown dimension", new)` in
`ops.py` lines 61-62. -/
def unknownDimMsg (labels : List Nat) : String :=
  s!"Unknown dimension {labels}"

/-- Steps 3-5 of the chunk derivation, shared by both alignment branches:
merge `new_axes` into `chunkss`, look up every output label, apply
`adjust_chunks` (`ops.py` lines 83-107). -/
def chunksFromChunkss (chunkss : List (Nat × List Nat)) (out_ind : List Nat)
    (adjust : List (Nat × AdjustVal)) (new_axes : List (Nat × List Nat)) :
    Except PyError (List (List Nat)) :=
  let m := applyNewAxes chunkss new_axes
  match lookupLabels m out_ind with
  | .error e => .error e
  | .ok chunks => applyAdjustChunks adjust out_ind chunks 0

/-! ## `unify_chunks` (`src/cubed/core/ops.py`, lines 433-480)

The consolidation step `broadcast_dimensions(nameinds, blockdim_dict,
consolidate=common_blockdim)` comes from dask (external to this repository),
so it is abstracted as a `consolidate` parameter mapping the argument pairs to
the consolidated per-label chunking; every theorem below holds for an
arbitrary consolidation.
-/

/-- Result of `unify_chunks` for one input array: either the very same array
node, or a new rechunk operation node inserted upstream of it (`rechunk(a,
chunksize)`, `ops.py` line 477). -/
inductive UniArr where
  | same (a : ZArr)
  | rechunked (a : ZArr) (chunksize : List Nat)
  deriving Repr, DecidableEq

/-- Is one dimension's chunk sequence regular (uniform blocks, except that the
last block may be smaller)? Modelled from the spec, § 3: "all-but-last block
in a dimension should be uniform when the block structure is regular
(required before index-algebra reconciliation)"; `cubed.utils` is not among
the provided sources. -/
def regularDim : List Nat → Bool
  | [] => false
  | x :: rest => rest.dropLast.all (fun y => y == x) && decide ((rest.getLast?.getD x) ≤ x)

/-- Modelled from the spec: `cubed.utils.to_chunksize` (not among the provided
sources; `ops.py` line 476 notes "this will raise if chunks are not regular").
Maps a regular chunk structure to its per-dimension uniform block size. -/
def toChunksize (cs : List (List Nat)) : Except PyError (List Nat) :=
  if cs.all regularDim then .ok (cs.map (fun c => c.headD 0))
  else .error (.valueError "Array must have regular chunks")

/-- `chunks = tuple(chunkss[j] if a.shape[n] > 1 else (a.shape[n],) ... for
n, j in enumerate(i))` (`ops.py` lines 466-473): the per-array chunk
structure demanded by the consolidated chunking; a size-`≤1` dimension
broadcasts trivially and keeps `(a.shape[n],)`.  (The `np.isnan` branch
cannot fire for integral chunk sizes.)  A label missing from `chunkss` is a
Python `KeyError`; an index longer than the shape is an `IndexError`. -/
def computedChunksFor (chunkss : List (Nat × List Nat)) :
    List Nat → List Nat → Except PyError (List (List Nat))
  | _, [] => .ok []
  | [], _ :: _ => .error .indexError
  | s :: srest, j :: jrest =>
    let dim : Except PyError (List Nat) :=
      if s > 1 then
        match alookup j chunkss with
        | none => .error (.keyError j)
        | some c => .ok c
      else .ok [s]
    match dim with
    | .error e => .error e
    | .ok c =>
      match computedChunksFor chunkss srest jrest with
      | .error e => .error e
      | .ok cs => .ok (c :: cs)

/-- The body of the `for a, i in arginds` loop of `unify_chunks`
(`ops.py` lines 462-479). -/
def unifyArr (chunkss : List (Nat × List Nat)) (p : ZArr × Option (List Nat)) :
    Except PyError UniArr :=
  match p.2 with
  | none => .ok (.same p.1)
  | some ind =>
    match computedChunksFor chunkss p.1.shape ind with
    | .error e => .error e
    | .ok cks =>
      if (!(decide (cks = p.1.chunks))) && p.1.chunks.all (fun c => !c.isEmpty) then
        match toChunksize cks with
        | .error e => .error e
        | .ok csz => .ok (.rechunked p.1 csz)
      else .ok (.same p.1)

def unifyList (chunkss : List (Nat × List Nat)) :
    List (ZArr × Option (List Nat)) → Except PyError (List UniArr)
  | [] => .ok []
  | p :: rest =>
    match unifyArr chunkss p with
    | .error e => .error e
    | .ok u =>
      match unifyList chunkss rest with
      | .error e => .error e
      | .ok us => .ok (u :: us)

/-- `dict(zip(ks, vs))`, as used at `ops.py` lines 446 and 262. -/
def zipDict {α : Type} (ks : List Nat) (vs : List α) : List (Nat × α) :=
  (ks.zip vs).foldl (fun m p => dictSet m p.1 p.2) []

/-- `unify_chunks` (`ops.py` lines 433-480): the two early-return paths, then
the consolidated main path in which any array whose chunk structure differs
from the consolidated one gets a rechunk node inserted upstream. -/
def unifyChunks (consolidate : List (ZArr × Option (List Nat)) → List (Nat × List Nat))
    (argpairs : List (ZArr × Option (List Nat))) :
    Except PyError (List (Nat × List Nat) × List UniArr) :=
  match argpairs with
  | [] => .ok ([], [])
  | p0 :: _ =>
    if argpairs.all (fun p => p.2 = none) then
      .ok ([], argpairs.map (fun p => .same p.1))
    else if argpairs.all (fun p => p.2 = p0.2) &&
            argpairs.all (fun p => p.1.chunks = p0.1.chunks) then
      match p0.2 with
      | some i0 => .ok (zipDict i0 p0.1.chunks, argpairs.map (fun p => .same p.1))
      | none => .ok ([], argpairs.map (fun p => .same p.1))
    else
      match unifyList (consolidate argpairs) argpairs with
      | .error e => .error e
      | .ok us => .ok (consolidate argpairs, us)

/-- The output-chunk derivation of `blockwise` (`ops.py` lines 39-108): the
unknown-output-label check first, then either chunk reconciliation
(`align_arrays=True`, via `unify_chunks`) or the widest-input rule
(`align_arrays=False`), then `new_axes` and `adjust_chunks`. -/
def blockwiseChunks (consolidate : List (ZArr × Option (List Nat)) → List (Nat × List Nat))
    (argpairs : List (ZArr × Option (List Nat))) (out_ind : List Nat)
    (adjust : List (Nat × AdjustVal)) (new_axes : List (Nat × List Nat))
    (align : Bool) : Except PyError (List (List Nat)) :=
  let new := unknownDims argpairs out_ind new_axes
  if new ≠ [] then
    .error (.valueError (unknownDimMsg new))
  else if align then
    match unifyChunks consolidate argpairs with
    | .error e => .error e
    | .ok (chunkss, _) => chunksFromChunkss chunkss out_ind adjust new_axes
  else
    chunksFromChunkss (buildChunkssNoAlign argpairs) out_ind adjust new_axes

/-- The `align_arrays=False` chunk derivation by itself (used by the
`map_blocks`/`squeeze` pipeline). -/
def blockwiseChunksNoAlign (argpairs : List (ZArr × Option (List Nat)))
    (out_ind : List Nat) (adjust : List (Nat × AdjustVal))
    (new_axes : List (Nat × List Nat)) : Except PyError (List (List Nat)) :=
  blockwiseChunks (fun _ => []) argpairs out_ind adjust new_axes false

/-! ## `squeeze` and the `_map_blocks` chunk pipeline
(`src/cubed/core/ops.py`, lines 210-275 and 417-430)

`squeeze` is embedded together with the `_map_blocks` call it makes
(specialized to `squeeze`'s call shape: a single array argument, `chunks`
provided), down to the `align_arrays=False` blockwise chunk derivation, so
that the output chunk structure of the whole pipeline is computed.
-/

/-- Python sequence indexing `l[i]` with negative-index wraparound;
out-of-range is an `IndexError`. -/
def pyGet (l : List Nat) (i : Int) : Option Nat :=
  if 0 ≤ i then l[i.toNat]?
  else if -(l.length : Int) ≤ i then l[((l.length : Int) + i).toNat]?
  else none

/-- Modelled from the spec: `dask.array.utils.validate_axis` (external to this
repository): each axis must satisfy `-ndim ≤ ax < ndim` (else an axis error,
an "out-of-range axis" configuration error in the spec's § 7) and is
normalized to `ax % ndim ∈ [0, ndim)`. -/
def validateAxis (ndim : Nat) : List Int → Except PyError (List Nat)
  | [] => .ok []
  | a :: rest =>
    if -(ndim : Int) ≤ a ∧ a < (ndim : Int) then
      match validateAxis ndim rest with
      | .ok ns => .ok ((a % (ndim : Int)).toNat :: ns)
      | .error e => .error e
    else .error .axisError

/-- `any(x.shape[i] != 1 for i in axis)` (`ops.py` line 421), evaluated
left-to-right with Python indexing. -/
def anyShapeNotOne (shape : List Nat) : List Int → Except PyError Bool
  | [] => .ok false
  | i :: rest =>
    match pyGet shape i with
    | none => .error .indexError
    | some s => if s ≠ 1 then .ok true else anyShapeNotOne shape rest

/-- `tuple(c for i, c in enumerate(l) if i not in drop)` (`ops.py` lines 240
and 426). -/
def keepIdxs {α : Type} (drop : List Nat) (l : List α) : List α :=
  (l.enum.filter (fun p => !(drop.contains p.1))).map Prod.snd

/-- The `for ax in sorted(new_axis)` insertion loop of `_map_blocks`
(`ops.py` lines 245-252), with `chunks` present: inserts a fresh label at
each new axis position and records its chunk sizes.  (`chunks[ax]` is always
in range when this is reached; modelled with a default.) -/
def insertNewAxes (dropLen : Nat) (chunks : List (List Nat)) :
    List Nat → List Nat → (List Nat × List (Nat × List Nat))
  | out_ind, [] => (out_ind, [])
  | out_ind, ax :: rest =>
    let nlab := out_ind.length + dropLen
    let p := insertNewAxes dropLen chunks (out_ind.insertIdx ax nlab) rest
    (p.1, (nlab, chunks.getD ax []) :: p.2)

/-- The chunk-structure part of `_map_blocks` (`ops.py` lines 210-275),
specialized to a single array argument `x` with `chunks` provided and
`new_axis=None` on entry (exactly `squeeze`'s call): compute
`out_ind = tuple(range(ndim))[::-1]`, apply `drop_axis` (range-check,
normalize mod `ndim_out`, filter), derive `new_axis = range(len(chunks) -
len(out_ind))` when `chunks` has more dims, check the chunk count, build
`adjust_chunks = dict(zip(out_ind, chunks))`, and call the
`align_arrays=False` blockwise chunk derivation. -/
def mapBlocksChunks (x : ZArr) (chunks : List (List Nat)) (drop_axis : List Nat) :
    Except PyError (List (List Nat)) :=
  let n := x.shape.length
  let out_ind0 := (List.range n).reverse
  let step1 : Except PyError (List Nat) :=
    if drop_axis.isEmpty then .ok out_ind0
    else
      let ndim_out := out_ind0.length
      if drop_axis.any (fun i => ndim_out ≤ i) then
        .error (.valueError "drop_axis out of range")
      else .ok (keepIdxs (drop_axis.map (· % ndim_out)) out_ind0)
  match step1 with
  | .error e => .error e
  | .ok out_ind1 =>
    let step2 : Except PyError (List Nat × List (Nat × List Nat)) :=
      if out_ind1.length < chunks.length then
        let new_axis := List.range (chunks.length - out_ind1.length)
        let p := insertNewAxes drop_axis.length chunks out_ind1 new_axis
        if (new_axis.foldl max 0) > (p.1.foldl max 0) then
          .error (.valueError "New_axis values do not fill in all dimensions")
        else .ok p
      else .ok (out_ind1, [])
    match step2 with
    | .error e => .error e
    | .ok (out_ind, new_axes) =>
      if chunks.length ≠ out_ind.length then
        let nc := chunks.length
        let no := out_ind.length
        .error (.valueError s!"Provided chunks have {nc} dims; expected {no} dims")
      else
        blockwiseChunksNoAlign [(x, some out_ind0)] out_ind
          (zipDict out_ind (chunks.map AdjustVal.seq)) new_axes

/-- `squeeze` (`ops.py` lines 417-430): the size-one check first (a
`ValueError` before anything else), then axis validation, then the
`map_blocks` pipeline whose result is the output chunk structure. -/
def squeezeModel (x : ZArr) (axis : List Int) : Except PyError (List (List Nat)) :=
  match anyShapeNotOne x.shape axis with
  | .error e => .error e
  | .ok true => .error (.valueError "cannot squeeze axis with size other than one")
  | .ok false =>
    match validateAxis x.shape.length axis with
    | .error e => .error e
    | .ok axisN => mapBlocksChunks x (keepIdxs axisN x.chunks) axisN

/-! ## Plan graph and fusion optimizer

`cubed/core/optimization.py` and `cubed/core/plan.py` are not among the
provided sources (only their tests are), so this component is modelled from
the spec (§ 3 "Plan Graph", § 4.4) and from the graph rewrites pinned down
by `src/cubed/tests/test_optimization.py`.  An operation node produces
exactly one array (`out`), reads a list of arrays (`ins`, with multiplicity:
parallel edges are repeated entries), carries a block function `f` and the
single-stage fusability flag.  A plan graph is a topologically ordered list
of operation nodes; array nodes are identified with the `out` of their
producing op.
-/

structure POp (V : Type) where
  out : Nat
  ins : List Nat
  fusable : Bool
  f : List V → V

abbrev PGraph (V : Type) := List (POp V)

def outsOf {V : Type} (g : PGraph V) : List Nat := g.map (fun op => op.out)

def allIns {V : Type} (g : PGraph V) : List Nat := (g.map (fun op => op.ins)).flatten

/-- Structural projection of a graph (op outputs and input edges), used to
compare rewritten graphs with the expected dags of the tests. -/
def structOf {V : Type} (g : PGraph V) : List (Nat × List Nat) :=
  g.map (fun op => (op.out, op.ins))

/-- Execute the plan in topological order, materializing each op's array
value from its inputs' values (an op whose inputs are unavailable is
skipped). -/
def evalOps {V : Type} : PGraph V → List (Nat × V) → List (Nat × V)
  | [], env => env
  | op :: rest, env =>
    match lookupAll env op.ins with
    | some vs => evalOps rest ((op.out, op.f vs) :: env)
    | none => evalOps rest env

/-- The materialized contents of array `n` after executing the whole plan. -/
def valOf {V : Type} (g : PGraph V) (n : Nat) : Option V :=
  alookup n (evalOps g [])

def producerOf {V : Type} (g : PGraph V) (a : Nat) : Option (POp V) :=
  g.find? (fun op => op.out == a)

/-- Can array `a` be fused away into its consumer: its producing op exists
and is single-stage/fusable (spec § 4.4 eligibility)? -/
def eligibleIn {V : Type} (g : PGraph V) (a : Nat) : Bool :=
  match producerOf g a with
  | some p => p.fusable
  | none => false

def predIns {V : Type} (g : PGraph V) (a : Nat) : List Nat :=
  match producerOf g a with
  | some p => p.ins
  | none => [a]

/-- Inputs of the fused node: each eligible operand is replaced by its
producer's inputs (with multiplicity), others stay direct. -/
def fusedIns {V : Type} (g : PGraph V) (ins : List Nat) : List Nat :=
  (ins.map (fun a => if eligibleIn g a then predIns g a else [a])).flatten

/-- Composition of block functions at fusion time: recompute each eligible
operand from its producer's inputs in-process, pass the rest through. -/
def fusedArgs {V : Type} (g : PGraph V) : List Nat → List V → List V
  | [], _ => []
  | a :: rest, vs =>
    match producerOf g a with
    | some p =>
      if p.fusable then
        p.f (vs.take p.ins.length) :: fusedArgs g rest (vs.drop p.ins.length)
      else
        match vs with
        | [] => []
        | v :: vr => v :: fusedArgs g rest vr
    | none =>
      match vs with
      | [] => []
      | v :: vr => v :: fusedArgs g rest vr

def fuseOp {V : Type} (g : PGraph V) (c : POp V) : POp V :=
  { out := c.out, ins := fusedIns g c.ins, fusable := c.fusable,
    f := fun vs => c.f (fusedArgs g c.ins vs) }

/-- Does array `a` have a consumer other than the op producing `cOut`? -/
def consumersOther {V : Type} (g : PGraph V) (cOut a : Nat) : Bool :=
  g.any (fun op => op.out != cOut && op.ins.contains a)

/-- Arrays fused away by fusing into `c`: eligible operands with no other
live consumer (an array still needed elsewhere is kept — spec § 4.4,
`test_fuse_other_dependents`). -/
def removedArrays {V : Type} (g : PGraph V) (c : POp V) : List Nat :=
  c.ins.filter (fun a => eligibleIn g a && !(consumersOther g c.out a))

/-- One fusion rewrite at the op producing array `t`, subject to a policy
guard: replace the op by the composed fused op and delete the fused-away
predecessors. -/
def fuseTargetWith {V : Type} (guard : PGraph V → POp V → Bool) (g : PGraph V)
    (t : Nat) : PGraph V :=
  match g.find? (fun op => op.out == t) with
  | none => g
  | some c =>
    if guard g c then
      (g.filter (fun op => !((removedArrays g c).contains op.out))).map
        (fun op => if op.out == t then fuseOp g c else op)
    else g

/-- Fuse whenever the target is fusable and at least one predecessor is
eligible (the mechanism used by `fuse_predecessors` /
`fuse_all_optimize_dag`). -/
def canFuseAny {V : Type} (g : PGraph V) (c : POp V) : Bool :=
  c.fusable && c.ins.any (fun a => eligibleIn g a)

/-- The guard of the old simple single-level pass (`simple_optimize_dag`):
the op must have exactly one in-edge (so parallel edges disqualify it), the
predecessor array must have no other out-edge, and its producer must be
fusable. -/
def simpleCanFuse {V : Type} (g : PGraph V) (c : POp V) : Bool :=
  c.fusable && c.ins.length == 1 &&
    (match c.ins with
     | [a] => eligibleIn g a && ((g.map (fun op => op.ins.count a)).sum == 1)
     | _ => false)

/-- The default fan-in limit of the multiple-inputs optimizer. -/
def defaultMaxTotalSourceArrays : Nat := 4

/-- Multi-level guard: fuse only while the number of distinct source arrays
feeding the fused node stays within the limit (spec § 4.4). -/
def canFuseMulti {V : Type} (limit : Nat) (g : PGraph V) (c : POp V) : Bool :=
  canFuseAny g c && decide ((fusedIns g c.ins).dedup.length ≤ limit)

/-- Sweep the graph in topological order, applying one fusion rewrite per
original op, as the optimizers do. -/
def sweepFuse {V : Type} (guard : PGraph V → POp V → Bool) (g : PGraph V) : PGraph V :=
  (g.map (fun op => op.out)).foldl (fun g1 t => fuseTargetWith guard g1 t) g

def simpleOptimizeDag {V : Type} (g : PGraph V) : PGraph V :=
  sweepFuse simpleCanFuse g

def multipleInputsOptimizeDag {V : Type} (limit : Nat) (g : PGraph V) : PGraph V :=
  sweepFuse (canFuseMulti limit) g

def fuseAllOptimizeDag {V : Type} (g : PGraph V) : PGraph V :=
  sweepFuse canFuseAny g

/-- `fuse_predecessors` applied to one named target. -/
def fusePredecessorsModel {V : Type} (g : PGraph V) (t : Nat) : PGraph V :=
  fuseTargetWith canFuseAny g t

/-- Well-formedness of a plan graph relative to already-defined array names:
fresh outputs and inputs produced earlier (acyclicity + unique producers). -/
def WFFrom {V : Type} : List Nat → PGraph V → Prop
  | _, [] => True
  | defined, op :: rest =>
    op.out ∉ defined ∧ (∀ a ∈ op.ins, a ∈ defined) ∧ WFFrom (op.out :: defined) rest

def WF {V : Type} (g : PGraph V) : Prop := WFFrom [] g

/-! ### Chain graphs and concrete fixtures -/

/-- The ops of a linear unary chain `k+1 ← k+2 ← ...`, each applying one
function to the previous array. -/
def chainOps {V : Type} [Inhabited V] : Nat → List (V → V) → PGraph V
  | _, [] => []
  | k, f :: rest =>
    { out := k + 1, ins := [k], fusable := true, f := fun vs => f vs.headI }
      :: chainOps (k + 1) rest

/-- A fusable chain: a source array (not fusable, like `asarray`) followed by
one single-stage op per function. -/
def chainGraph {V : Type} [Inhabited V] (v : V) (fs : List (V → V)) : PGraph V :=
  { out := 0, ins := [], fusable := false, f := fun _ => v } :: chainOps 0 fs

/-- Array contents for the concrete fusion tests: a dtype tag plus exact
integer entries.  All values involved are small (|v| < 2^24), so the
int→float32 cast is exact and bit-identity of contents coincides with
equality of this representation. -/
inductive DType where
  | int64
  | float32
  deriving Repr, DecidableEq, Inhabited

structure NdArr where
  dtype : DType
  data : List (List Int)
  deriving Repr, DecidableEq, Inhabited

def negateA (x : NdArr) : NdArr :=
  { dtype := x.dtype, data := x.data.map (fun r => r.map (fun v => -v)) }

def astypeF32 (x : NdArr) : NdArr :=
  { dtype := .float32, data := x.data }

/-- The 3×3 integer array of `test_fusion`. -/
def a33 : NdArr := { dtype := .int64, data := [[1, 2, 3], [4, 5, 6], [7, 8, 9]] }

/-- The chain `a → negate → astype(float32) → negate` of `test_fusion`. -/
def fusionChainGraph : PGraph NdArr := chainGraph a33 [negateA, astypeF32, negateA]

def leafOp (i : Nat) (v : NdArr) : POp NdArr :=
  { out := i, ins := [], fusable := false, f := fun _ => v }

def unaryOp (o i : Nat) (h : NdArr → NdArr) : POp NdArr :=
  { out := o, ins := [i], fusable := true, f := fun vs => h vs.headI }

def ones22 : NdArr := { dtype := .int64, data := [[1, 1], [1, 1]] }

/-- `test_fuse_other_dependents`: `b = -a`, `c = -b`, `d = -b`; fusing at `c`
must keep `b` because `d` still consumes it. -/
def otherDepsGraph : PGraph NdArr :=
  [leafOp 0 ones22, unaryOp 1 0 negateA, unaryOp 2 1 negateA, unaryOp 3 1 negateA]

def leafU (i : Nat) : POp Unit :=
  { out := i, ins := [], fusable := false, f := fun _ => () }

def addU (o i j : Nat) : POp Unit :=
  { out := o, ins := [i, j], fusable := true, f := fun _ => () }

/-- The 8-leaf balanced binary fan-in tree of `test_fuse_large_fan_in_default`:
leaves 0-7, pair sums 8-11, quad sums 12-13, root 14. -/
def fanInTree : PGraph Unit :=
  [leafU 0, leafU 1, leafU 2, leafU 3, leafU 4, leafU 5, leafU 6, leafU 7,
   addU 8 0 1, addU 9 2 3, addU 10 4 5, addU 11 6 7,
   addU 12 8 9, addU 13 10 11, addU 14 12 13]

def addZ (o i j : Nat) : POp Int :=
  { out := o, ins := [i, j], fusable := true,
    f := fun vs => vs.headI + (vs.drop 1).headI }

/-- `test_fuse_repeated_argument` / `test_no_fusion_multiple_edges`: `b = -a`,
`c = b + b` — the op producing `c` has two parallel edges to `b`. -/
def repeatedArgGraph : PGraph Int :=
  [{ out := 0, ins := [], fusable := false, f := fun _ => 1 },
   { out := 1, ins := [0], fusable := true, f := fun vs => -vs.headI },
   addZ 2 1 1]

/-! ## Memory projection of the blockwise primitive

Modelled from the spec (§ 4.1 step 5, § 7): `cubed/primitive/blockwise.py` is
not among the provided sources; the projection formula and the error message
format are pinned by § 4.1/§ 7 and `test_blockwise_allowed_mem_exceeded`.
Chunk footprints are (compressed, uncompressed) byte-count pairs.
-/

def projectedMem (reserved : Nat) (inputs : List (Nat × Nat)) (output : Nat × Nat)
    (extra : Nat) : Nat :=
  reserved + (inputs.map (fun p => p.1 + p.2)).sum + output.1 + output.2 + extra

def memExceededMsg (projected allowed reserved : Nat) : String :=
  s!"Projected blockwise memory ({projected}) exceeds allowed_mem ({allowed}), including reserved_mem ({reserved})"

/-- A built blockwise operation: its projected memory and its tasks (one per
output block coordinate).  Tasks only exist once the memory check has
passed. -/
structure PrimitiveOp where
  projected_mem : Nat
  num_tasks : Nat
  tasks : List (List Nat)
  deriving Repr, DecidableEq

/-- All output block coordinates: the Cartesian product of per-dimension
block counts. -/
def blockCoords : List Nat → List (List Nat)
  | [] => [[]]
  | n :: rest => ((List.range n).map (fun i => (blockCoords rest).map (fun t => i :: t))).flatten

/-- Modelled from the spec: the fail-fast memory check of the blockwise
primitive — project the worst-case per-task memory, and reject the whole
operation before creating any task if it exceeds the allowed budget. -/
def primBlockwiseModel (allowed reserved : Nat) (inputs : List (Nat × Nat))
    (output : Nat × Nat) (extra : Nat) (numblocks : List Nat) :
    Except PyError PrimitiveOp :=
  let projected := projectedMem reserved inputs output extra
  if projected > allowed then
    .error (.valueError (memExceededMsg projected allowed reserved))
  else
    .ok { projected_mem := projected,
          num_tasks := (blockCoords numblocks).length,
          tasks := blockCoords numblocks }

/-! ## Rechunk primitive

Modelled from the spec (§ 4.2): `cubed/primitive/rechunk.py` is not among the
provided sources.  The store is modelled one-dimensionally: contents are a
flat sequence held in consecutive blocks; a rechunk is the two-stage
block-granular copy (source → intermediate partition → target partition),
each stage assembling every output block by reading elements from the
previous stage's blocks.
-/

structure BStore (α : Type) where
  chunks : List Nat
  blocks : List (List α)
  deriving Repr, DecidableEq

def storeContents {α : Type} (s : BStore α) : List α := s.blocks.flatten

/-- Read one element from a block store by global offset, walking blocks. -/
def readElem {α : Type} : List (List α) → Nat → Option α
  | [], _ => none
  | b :: bs, i => if i < b.length then b[i]? else readElem bs (i - b.length)

/-- Read `len` consecutive elements starting at `off`. -/
def sliceRead {α : Type} (src : List (List α)) : Nat → Nat → Option (List α)
  | _, 0 => some []
  | off, len + 1 =>
    match readElem src off, sliceRead src (off + 1) len with
    | some v, some vs => some (v :: vs)
    | _, _ => none

/-- Assemble the target blocks, one per target chunk, by reading from the
source blocks. -/
def buildBlocks {α : Type} (src : List (List α)) : Nat → List Nat → Option (List (List α))
  | _, [] => some []
  | off, n :: rest =>
    match sliceRead src off n, buildBlocks src (off + n) rest with
    | some b, some bs => some (b :: bs)
    | _, _ => none

/-- One copy stage: write a store with the given chunk partition and the
same contents. -/
def copyToChunks {α : Type} (s : BStore α) (t : List Nat) : Option (BStore α) :=
  match buildBlocks s.blocks 0 t with
  | some bs => some { chunks := t, blocks := bs }
  | none => none

/-- The rechunk primitive: always a two-stage copy through an intermediate
partition (spec § 4.2), with the intermediate chosen by an unspecified
heuristic — modelled as a parameter. -/
def rechunkModel {α : Type} (s : BStore α) (intermediate target : List Nat) :
    Option (BStore α) :=
  match copyToChunks s intermediate with
  | some m => copyToChunks m target
  | none => none

/-! # Theorems -/

/-- C7: for every blockwise call, if some output label appears neither in any
input's label sequence nor in the new-axis declarations, the call raises a
`ValueError` naming the unknown dimensions, before any chunk-structure work
(consolidation, alignment, `adjust_chunks`) and before anything downstream
(the returned value is the error alone, for either value of `align_arrays`
and for any consolidation/adjust/new-axis inputs). -/
theorem blockwise_unknown_output_label
    (consolidate : List (ZArr × Option (List Nat)) → List (Nat × List Nat))
    (argpairs : List (ZArr × Option (List Nat))) (out_ind : List Nat)
    (adjust : List (Nat × AdjustVal)) (new_axes : List (Nat × List Nat))
    (align : Bool)
    (h : unknownDims argpairs out_ind new_axes ≠ []) :
    blockwiseChunks consolidate argpairs out_ind adjust new_axes align
      = .error (.valueError (unknownDimMsg (unknownDims argpairs out_ind new_axes))) := by
  unfold blockwiseChunks
  simp [h]

theorem blockwise_unknown_output_label_witness :
    unknownDims [({ name := 0, shape := [2], chunks := [[2]] }, some [0])] [1] [] ≠ [] ∧
    blockwiseChunks (fun _ => []) [({ name := 0, shape := [2], chunks := [[2]] }, some [0])]
        [1] [] [] false
      = .error (.valueError (unknownDimMsg [1])) := by
  refine ⟨by decide, ?_⟩
  have h := blockwise_unknown_output_label (fun _ => [])
    [({ name := 0, shape := [2], chunks := [[2]] }, some [0])] [1] [] [] false (by decide)
  simpa using h

/-- C8: the `adjust_chunks` override dispatch of `blockwise` (`ops.py` lines
89-107): an integer constant is applied uniformly to every block of the
dimension, a callable is applied to each existing block size, an explicit
sequence replaces the dimension's chunk sizes when its entry count matches
the existing block count and raises a configuration error otherwise, and any
other override type is rejected with an error. -/
theorem adjust_chunks_semantics :
    (∀ (i k : Nat) (c : List Nat),
        adjustDim i (.const k) c = .ok (List.replicate c.length k)) ∧
    (∀ (i : Nat) (f : Nat → Nat) (c : List Nat),
        adjustDim i (.call f) c = .ok (c.map f)) ∧
    (∀ (i : Nat) (s c : List Nat), s.length = c.length →
        adjustDim i (.seq s) c = .ok s) ∧
    (∀ (i : Nat) (s c : List Nat), s.length ≠ c.length →
        ∃ msg, adjustDim i (.seq s) c = .error (.valueError msg)) ∧
    (∀ (i : Nat) (c : List Nat),
        ∃ msg, adjustDim i .other c = .error (.notImplementedError msg)) := by
  refine ⟨?_, ?_, ?_, ?_, ?_⟩
  · intro i k c
    simp [adjustDim, List.map_const']
  · intro i f c
    rfl
  · intro i s c h
    simp [adjustDim, h]
  · intro i s c h
    have hd : adjustDim i (.seq s) c = .error (.valueError
        ("Dimension " ++ toString i ++ " has " ++ toString c.length ++
          " blocks, adjust_chunks specified with " ++ toString s.length ++ " blocks")) := by
      simp [adjustDim, h]
      rfl
    exact ⟨_, hd⟩
  · intro i c
    exact ⟨_, rfl⟩

theorem adjust_chunks_semantics_witness :
    adjustDim 0 (.const 3) [2, 2, 1] = .ok [3, 3, 3] ∧
    adjustDim 0 (.call (fun n => n + 1)) [2, 2, 1] = .ok [3, 3, 2] ∧
    adjustDim 0 (.seq [1, 3]) [2, 2] = .ok [1, 3] ∧
    (∃ msg, adjustDim 1 (.seq [4]) [2, 2] = .error (.valueError msg)) ∧
    (∃ msg, adjustDim 0 .other [2, 2] = .error (.notImplementedError msg)) := by
  refine ⟨?_, ?_, ?_, ?_, ?_⟩
  · simpa using adjust_chunks_semantics.1 0 3 [2, 2, 1]
  · simpa using adjust_chunks_semantics.2.1 0 (fun n => n + 1) [2, 2, 1]
  · simpa using adjust_chunks_semantics.2.2.1 0 [1, 3] [2, 2] (by decide)
  · exact adjust_chunks_semantics.2.2.2.1 1 [4] [2, 2] (by decide)
  · exact adjust_chunks_semantics.2.2.2.2 0 [2, 2]

/-- Every successful `unify_chunks` output slot is the input array itself or a
rechunk node wrapped around it. -/
theorem unifyArr_shape {chunkss : List (Nat × List Nat)}
    {p : ZArr × Option (List Nat)} {u : UniArr}
    (h : unifyArr chunkss p = .ok u) :
    u = .same p.1 ∨ ∃ csz, u = .rechunked p.1 csz := by
  unfold unifyArr at h
  split at h
  · left
    cases h
    rfl
  · split at h
    · cases h
    · split at h
      · split at h
        · cases h
        · right
          cases h
          exact ⟨_, rfl⟩
      · left
        cases h
        rfl

theorem unifyList_shape {chunkss : List (Nat × List Nat)} :
    ∀ {l : List (ZArr × Option (List Nat))} {us : List UniArr},
      unifyList chunkss l = .ok us →
      List.Forall₂ (fun (p : ZArr × Option (List Nat)) (u : UniArr) =>
        u = .same p.1 ∨ ∃ csz, u = .rechunked p.1 csz) l us := by
  intro l
  induction l with
  | nil =>
    intro us h
    cases h
    exact List.Forall₂.nil
  | cons p rest ih =>
    intro us h
    unfold unifyList at h
    split at h
    · cases h
    · rename_i u hu
      split at h
      · cases h
      · rename_i us' hus
        cases h
        exact List.Forall₂.cons (unifyArr_shape hu) (ih hus)

theorem forall2_same_map {l : List (ZArr × Option (List Nat))} :
    List.Forall₂ (fun (p : ZArr × Option (List Nat)) (u : UniArr) =>
        u = .same p.1 ∨ ∃ csz, u = .rechunked p.1 csz)
      l (l.map (fun p => .same p.1)) := by
  induction l with
  | nil => exact List.Forall₂.nil
  | cons p rest ih => exact List.Forall₂.cons (Or.inl rfl) ih

/-- C9: chunk reconciliation never mutates an existing array node.
Conjunct 1: every output slot of a successful `unify_chunks` is either the
very same input array (`same`) or that same array with a new rechunk
operation node inserted upstream (`rechunked`), for any consolidation.
Conjunct 2: in the consolidated path, an array whose chunk structure equals
the consolidated per-array chunking is returned unchanged, and one whose
chunk structure differs (its chunk sequences being nonempty, as for every
real array) gets the upstream rechunk node instead.
Conjunct 3: a dimension of size ≤ 1 broadcasts trivially: its computed
chunking is `(shape[n],)` and never consults the consolidated chunking. -/
theorem unify_chunks_no_mutation :
    (∀ (consolidate : List (ZArr × Option (List Nat)) → List (Nat × List Nat))
        (argpairs : List (ZArr × Option (List Nat)))
        (chunkss : List (Nat × List Nat)) (outs : List UniArr),
        unifyChunks consolidate argpairs = .ok (chunkss, outs) →
        List.Forall₂ (fun (p : ZArr × Option (List Nat)) (u : UniArr) =>
          u = .same p.1 ∨ ∃ csz, u = .rechunked p.1 csz) argpairs outs) ∧
    (∀ (chunkss : List (Nat × List Nat)) (a : ZArr) (ind : List Nat)
        (cks : List (List Nat)),
        computedChunksFor chunkss a.shape ind = .ok cks →
        (cks = a.chunks → unifyArr chunkss (a, some ind) = .ok (.same a)) ∧
        (cks ≠ a.chunks → a.chunks.all (fun c => !c.isEmpty) = true →
          ∀ csz, toChunksize cks = .ok csz →
            unifyArr chunkss (a, some ind) = .ok (.rechunked a csz))) ∧
    (∀ (chunkss : List (Nat × List Nat)) (s : Nat) (srest : List Nat)
        (j : Nat) (jrest : List Nat), s ≤ 1 →
        computedChunksFor chunkss (s :: srest) (j :: jrest) =
          match computedChunksFor chunkss srest jrest with
          | .ok cs => .ok ([s] :: cs)
          | .error e => .error e) := by
  refine ⟨?_, ?_, ?_⟩
  · intro consolidate argpairs chunkss outs h
    unfold unifyChunks at h
    split at h
    · cases h
      exact List.Forall₂.nil
    · split at h
      · cases h
        exact forall2_same_map
      · split at h
        · split at h
          · cases h
            exact forall2_same_map
          · cases h
            exact forall2_same_map
        · split at h
          · cases h
          · rename_i us hus
            cases h
            exact unifyList_shape hus
  · intro chunkss a ind cks hc
    constructor
    · intro heq
      unfold unifyArr
      simp only [hc]
      have hcond : ((!(decide (cks = a.chunks))) &&
          a.chunks.all (fun c => !c.isEmpty)) = false := by
        simp [heq]
      rw [hcond]
      simp
    · intro hne hall csz hcsz
      unfold unifyArr
      simp only [hc]
      have hcond : ((!(decide (cks = a.chunks))) &&
          a.chunks.all (fun c => !c.isEmpty)) = true := by
        simp [hne, hall]
      rw [hcond]
      simp only [if_true, hcsz]
  · intro chunkss s srest j jrest hs
    have hgt : ¬ (s > 1) := by omega
    cases hrec : computedChunksFor chunkss srest jrest with
    | error e => simp [computedChunksFor, hgt, hrec]
    | ok cs => simp [computedChunksFor, hgt, hrec]

theorem unify_chunks_no_mutation_witness :
    unifyChunks (fun _ => [(0, [2, 2])])
        [({ name := 1, shape := [4], chunks := [[2, 2]] }, some [0]),
         ({ name := 2, shape := [4], chunks := [[4]] }, some [0])]
      = .ok ([(0, [2, 2])],
          [.same { name := 1, shape := [4], chunks := [[2, 2]] },
           .rechunked { name := 2, shape := [4], chunks := [[4]] } [2]]) ∧
    List.Forall₂ (fun (p : ZArr × Option (List Nat)) (u : UniArr) =>
        u = .same p.1 ∨ ∃ csz, u = .rechunked p.1 csz)
      [({ name := 1, shape := [4], chunks := [[2, 2]] }, some [0]),
       ({ name := 2, shape := [4], chunks := [[4]] }, some [0])]
      [.same { name := 1, shape := [4], chunks := [[2, 2]] },
       .rechunked { name := 2, shape := [4], chunks := [[4]] } [2]] ∧
    unifyArr [(0, [2, 2])] ({ name := 2, shape := [4], chunks := [[4]] }, some [0])
      = .ok (.rechunked { name := 2, shape := [4], chunks := [[4]] } [2]) ∧
    computedChunksFor [(0, [7])] [1, 4] [0, 0] = .ok [[1], [7]] := by
  refine ⟨by rfl, ?_, ?_, ?_⟩
  · exact unify_chunks_no_mutation.1 (fun _ => [(0, [2, 2])]) _ _ _ (by rfl)
  · exact (unify_chunks_no_mutation.2.1 [(0, [2, 2])]
      { name := 2, shape := [4], chunks := [[4]] } [0] [[2, 2]] (by rfl)).2
      (by decide) (by rfl) [2] (by rfl)
  · have h := unify_chunks_no_mutation.2.2 [(0, [7])] 1 [4] 0 [0] (by decide)
    rw [h]
    rfl

/-! ### List machinery for the `squeeze` pipeline -/

theorem keep_aux {α : Type} (c : Nat → Bool) (dflt : α) :
    ∀ (l : List α) (s : Nat),
      (((List.range' s l.length).zip l).filter (fun p => c p.1)).map Prod.snd
        = ((List.range' s l.length).filter c).map (fun i => l.getD (i - s) dflt) := by
  intro l
  induction l with
  | nil => intro s; rfl
  | cons a tl ih =>
    intro s
    rw [List.length_cons, List.range'_succ, List.zip_cons_cons, List.filter_cons,
      List.filter_cons]
    have hmem : ∀ i ∈ (List.range' (s + 1) tl.length).filter c,
        (a :: tl).getD (i - s) dflt = tl.getD (i - (s + 1)) dflt := by
      intro i hi
      have his : s + 1 ≤ i := (List.mem_range'_1.mp (List.mem_of_mem_filter hi)).1
      have hstep : i - s = (i - (s + 1)) + 1 := by omega
      rw [hstep]
      rfl
    dsimp only
    cases hcs : c s with
    | true =>
      rw [if_pos rfl, if_pos rfl, List.map_cons, List.map_cons]
      congr 1
      · simp [Nat.sub_self]
      · rw [ih (s + 1)]
        exact (List.map_congr_left hmem).symm
    | false =>
      rw [if_neg (by simp), if_neg (by simp)]
      rw [ih (s + 1)]
      exact (List.map_congr_left hmem).symm

theorem keepIdxs_eq {α : Type} (drop : List Nat) (l : List α) (dflt : α) :
    keepIdxs drop l
      = ((List.range l.length).filter (fun i => !(drop.contains i))).map
          (fun i => l.getD i dflt) := by
  unfold keepIdxs
  rw [List.enum_eq_zip_range, List.range_eq_range']
  have h := keep_aux (fun i => !(drop.contains i)) dflt l 0
  simpa using h

theorem keepIdxs_nil {α : Type} (l : List α) : keepIdxs [] l = l := by
  unfold keepIdxs
  have : ∀ p ∈ l.enum, (!(([] : List Nat).contains p.1)) = true := by
    intro p _; rfl
  rw [List.filter_eq_self.mpr this, List.enum_map_snd]

theorem alookup_chunkssUpd_ne (j k : Nat) (c : List Nat) (m : List (Nat × List Nat))
    (h : j ≠ k) : alookup j (chunkssUpd m k c) = alookup j m := by
  unfold chunkssUpd
  cases alookup k m with
  | none => exact alookup_dictSet_ne m j k c h
  | some c0 =>
    by_cases hl : c0.length < c.length
    · simp only [hl, if_true]
      exact alookup_dictSet_ne m j k c h
    · simp [hl]

theorem chunkssFold_not_mem :
    ∀ (L : List (List Nat × Nat)) (m : List (Nat × List Nat)) (j : Nat),
      j ∉ L.map Prod.snd →
      alookup j (L.foldl (fun m ci => chunkssUpd m ci.2 ci.1) m) = alookup j m := by
  intro L
  induction L with
  | nil => intro m j _; rfl
  | cons p rest ih =>
    intro m j hj
    rw [List.map_cons, List.mem_cons] at hj
    push_neg at hj
    rw [List.foldl_cons, ih _ j hj.2]
    exact alookup_chunkssUpd_ne j p.2 p.1 m hj.1

theorem chunkssFold_mem :
    ∀ (L : List (List Nat × Nat)) (m : List (Nat × List Nat)) (c : List Nat) (j : Nat),
      (L.map Prod.snd).Nodup → (c, j) ∈ L → alookup j m = none →
      alookup j (L.foldl (fun m ci => chunkssUpd m ci.2 ci.1) m) = some c := by
  intro L
  induction L with
  | nil => intro m c j _ hmem _; cases hmem
  | cons p rest ih =>
    intro m c j hnd hmem hm
    rw [List.map_cons] at hnd
    have hnd2 := hnd.of_cons
    rw [List.foldl_cons]
    rcases List.mem_cons.mp hmem with hEq | hRest
    · cases hEq
      have hnotin : j ∉ rest.map Prod.snd := by
        intro hin
        exact (List.nodup_cons.mp hnd).1 hin
      rw [chunkssFold_not_mem rest _ j hnotin]
      unfold chunkssUpd
      rw [hm]
      exact alookup_dictSet_self m j c
    · have hj : j ∈ rest.map Prod.snd :=
        List.mem_map.mpr ⟨(c, j), hRest, rfl⟩
      have hne : j ≠ p.2 := by
        intro hEq
        exact (List.nodup_cons.mp hnd).1 (hEq ▸ hj)
      refine ih _ c j hnd2 hRest ?_
      rw [alookup_chunkssUpd_ne j p.2 p.1 m hne]
      exact hm

theorem dictSetFold_not_mem {α : Type} :
    ∀ (L : List (Nat × α)) (m : List (Nat × α)) (j : Nat),
      j ∉ L.map Prod.fst →
      alookup j (L.foldl (fun m p => dictSet m p.1 p.2) m) = alookup j m := by
  intro L
  induction L with
  | nil => intro m j _; rfl
  | cons p rest ih =>
    intro m j hj
    rw [List.map_cons, List.mem_cons] at hj
    push_neg at hj
    rw [List.foldl_cons, ih _ j hj.2]
    exact alookup_dictSet_ne m j p.1 p.2 hj.1

theorem dictSetFold_mem {α : Type} :
    ∀ (ks : List Nat) (vs : List α) (m : List (Nat × α)) (j : Nat) (v : α),
      ks.Nodup → (j, v) ∈ ks.zip vs →
      alookup j ((ks.zip vs).foldl (fun m p => dictSet m p.1 p.2) m) = some v := by
  intro ks
  induction ks with
  | nil => intro vs m j v _ hmem; cases hmem
  | cons k krest ih =>
    intro vs m j v hnd hmem
    cases vs with
    | nil => cases hmem
    | cons w wrest =>
      rw [List.zip_cons_cons] at hmem ⊢
      rw [List.foldl_cons]
      rcases List.mem_cons.mp hmem with hEq | hRest
      · obtain ⟨hj, hv⟩ := Prod.mk.inj hEq
        subst hj
        subst hv
        have hnotin : j ∉ (krest.zip wrest).map Prod.fst := by
          intro hin
          rcases List.mem_map.mp hin with ⟨q, hq, hq1⟩
          exact (List.nodup_cons.mp hnd).1 (hq1 ▸ (List.of_mem_zip hq).1)
        rw [dictSetFold_not_mem _ _ j hnotin]
        exact alookup_dictSet_self m j v
      · exact ih wrest _ j v (List.nodup_cons.mp hnd).2 hRest

theorem lookupLabels_pointwise (m : List (Nat × List Nat)) (f : Nat → List Nat) :
    ∀ (L : List Nat), (∀ j ∈ L, alookup j m = some (f j)) →
      lookupLabels m L = .ok (L.map f) := by
  intro L
  induction L with
  | nil => intro _; rfl
  | cons j rest ih =>
    intro h
    unfold lookupLabels
    rw [h j (List.mem_cons_self j rest), ih (fun i hi => h i (List.mem_cons_of_mem j hi))]
    rfl

theorem applyAdjust_seq (adjust : List (Nat × AdjustVal)) :
    ∀ (l : List (Nat × List Nat)) (i : Nat),
      (∀ p ∈ l, alookup p.1 adjust = some (.seq p.2)) →
      applyAdjustChunks adjust (l.map Prod.fst) (l.map Prod.snd) i = .ok (l.map Prod.snd) := by
  intro l
  induction l with
  | nil => intro i _; rfl
  | cons p rest ih =>
    intro i h
    rw [List.map_cons, List.map_cons]
    unfold applyAdjustChunks
    rw [h p (List.mem_cons_self p rest)]
    have hdim : adjustDim i (.seq p.2) p.2 = .ok p.2 := by
      simp [adjustDim]
    dsimp only
    rw [hdim, ih (i + 1) (fun q hq => h q (List.mem_cons_of_mem p hq))]

theorem keepIdxs_reverse_range (drop : List Nat) (n : Nat) :
    keepIdxs drop ((List.range n).reverse)
      = ((List.range n).filter (fun i => !(drop.contains i))).map (fun i => n - 1 - i) := by
  rw [keepIdxs_eq drop _ 0, List.length_reverse, List.length_range]
  apply List.map_congr_left
  intro i hi
  have hin : i < n := List.mem_range.mp (List.mem_of_mem_filter hi)
  have hb : i < ((List.range n).reverse).length := by simpa using hin
  rw [List.getD_eq_getElem?_getD, List.getElem?_eq_getElem hb, Option.getD_some,
    List.getElem_reverse]
  simp

/-- The heart of the `squeeze` output-chunk claim: for a single array argument
labelled with the reversed index range, output labels obtained by dropping a
set of positions, and `adjust_chunks` built by zipping those labels with the
correspondingly dropped chunk sequences, the blockwise chunk derivation
returns exactly the dropped chunk structure. -/
theorem blockwise_squeeze_core (x : ZArr) (drop : List Nat)
    (hlen : x.chunks.length = x.shape.length) :
    blockwiseChunksNoAlign [(x, some ((List.range x.shape.length).reverse))]
        (keepIdxs drop ((List.range x.shape.length).reverse))
        (zipDict (keepIdxs drop ((List.range x.shape.length).reverse))
          ((keepIdxs drop x.chunks).map AdjustVal.seq))
        []
      = .ok (keepIdxs drop x.chunks) := by
  have hKsub : ∀ i ∈ (List.range x.shape.length).filter (fun i => !(drop.contains i)),
      i < x.shape.length := fun i hi => List.mem_range.mp (List.mem_of_mem_filter hi)
  have hKnd : ((List.range x.shape.length).filter (fun i => !(drop.contains i))).Nodup :=
    (List.nodup_range _).filter _
  have hout := keepIdxs_reverse_range drop x.shape.length
  have hchunks : keepIdxs drop x.chunks
      = ((List.range x.shape.length).filter (fun i => !(drop.contains i))).map
          (fun i => x.chunks.getD i []) := by
    rw [keepIdxs_eq drop _ [], hlen]
  -- lookups in the chunkss dict built from zip(x.chunks, reversed range)
  have hlook : ∀ i, i < x.shape.length →
      alookup (x.shape.length - 1 - i)
          (buildChunkssNoAlign [(x, some ((List.range x.shape.length).reverse))])
        = some (x.chunks.getD i []) := by
    intro i hi
    show alookup _
      ((x.chunks.zip ((List.range x.shape.length).reverse)).foldl
        (fun m ci => chunkssUpd m ci.2 ci.1) []) = _
    have hlenR : ((List.range x.shape.length).reverse).length = x.shape.length := by simp
    have hbz : i < (x.chunks.zip ((List.range x.shape.length).reverse)).length := by
      simp [hlen]
      omega
    have hbc : i < x.chunks.length := by rw [hlen]; exact hi
    have hbr : i < ((List.range x.shape.length).reverse).length := by rw [hlenR]; exact hi
    apply chunkssFold_mem
    · have hsnd : (x.chunks.zip ((List.range x.shape.length).reverse)).map Prod.snd
          = (List.range x.shape.length).reverse := by
        apply List.map_snd_zip
        rw [hlenR, hlen]
      rw [hsnd]
      simp [List.nodup_range]
    · have hz : (x.chunks.zip ((List.range x.shape.length).reverse))[i]
          = (x.chunks[i], ((List.range x.shape.length).reverse)[i]) :=
        List.getElem_zip
      have hr : ((List.range x.shape.length).reverse)[i] = x.shape.length - 1 - i := by
        rw [List.getElem_reverse]
        simp
      have hc : x.chunks[i] = x.chunks.getD i [] := by
        rw [List.getD_eq_getElem?_getD, List.getElem?_eq_getElem hbc, Option.getD_some]
      have : (x.chunks.getD i [], x.shape.length - 1 - i)
          = (x.chunks.zip ((List.range x.shape.length).reverse))[i] := by
        rw [hz, hr, hc]
      rw [this]
      exact List.getElem_mem hbz
    · rfl
  -- pointwise chunk lookup along the output labels
  have hlabels : lookupLabels
      (buildChunkssNoAlign [(x, some ((List.range x.shape.length).reverse))])
      (keepIdxs drop ((List.range x.shape.length).reverse))
    = .ok ((keepIdxs drop ((List.range x.shape.length).reverse)).map
        (fun j => x.chunks.getD (x.shape.length - 1 - j) [])) := by
    apply lookupLabels_pointwise
    intro j hj
    rw [hout] at hj
    rcases List.mem_map.mp hj with ⟨i, hiK, rfl⟩
    have hi : i < x.shape.length := hKsub i hiK
    have hsub : x.shape.length - 1 - (x.shape.length - 1 - i) = i := by omega
    rw [hsub]
    exact hlook i hi
  have hmapf : (keepIdxs drop ((List.range x.shape.length).reverse)).map
        (fun j => x.chunks.getD (x.shape.length - 1 - j) [])
      = keepIdxs drop x.chunks := by
    rw [hout, hchunks, List.map_map]
    apply List.map_congr_left
    intro i hi
    have hi2 : i < x.shape.length := hKsub i hi
    have hsub : x.shape.length - 1 - (x.shape.length - 1 - i) = i := by omega
    simp only [Function.comp]
    rw [hsub]
  -- nodup output labels
  have hnd1 : (keepIdxs drop ((List.range x.shape.length).reverse)).Nodup := by
    rw [hout]
    apply List.Nodup.map_on _ hKnd
    intro i hi i2 hi2 hEq
    have := hKsub i hi
    have := hKsub i2 hi2
    omega
  -- adjust application returns the dropped chunks unchanged
  have hlens : (keepIdxs drop ((List.range x.shape.length).reverse)).length
      = (keepIdxs drop x.chunks).length := by
    rw [hout, hchunks]
    simp
  have hadj : applyAdjustChunks
      (zipDict (keepIdxs drop ((List.range x.shape.length).reverse))
        ((keepIdxs drop x.chunks).map AdjustVal.seq))
      (keepIdxs drop ((List.range x.shape.length).reverse))
      (keepIdxs drop x.chunks) 0
    = .ok (keepIdxs drop x.chunks) := by
    have hfst : ((keepIdxs drop ((List.range x.shape.length).reverse)).zip
          (keepIdxs drop x.chunks)).map Prod.fst
        = keepIdxs drop ((List.range x.shape.length).reverse) :=
      List.map_fst_zip _ _ (le_of_eq hlens)
    have hsnd : ((keepIdxs drop ((List.range x.shape.length).reverse)).zip
          (keepIdxs drop x.chunks)).map Prod.snd
        = keepIdxs drop x.chunks :=
      List.map_snd_zip _ _ (ge_of_eq hlens)
    have happ := applyAdjust_seq
      (zipDict (keepIdxs drop ((List.range x.shape.length).reverse))
        ((keepIdxs drop x.chunks).map AdjustVal.seq))
      ((keepIdxs drop ((List.range x.shape.length).reverse)).zip (keepIdxs drop x.chunks))
      0 ?_
    · rw [hfst, hsnd] at happ
      exact happ
    · intro p hp
      have hmem2 : (p.1, AdjustVal.seq p.2)
          ∈ (keepIdxs drop ((List.range x.shape.length).reverse)).zip
              ((keepIdxs drop x.chunks).map AdjustVal.seq) := by
        rw [List.zip_map_right]
        exact List.mem_map.mpr ⟨p, hp, rfl⟩
      exact dictSetFold_mem _ _ [] p.1 (AdjustVal.seq p.2) hnd1 hmem2
  -- unknown-dimension check passes
  have hunk : unknownDims [(x, some ((List.range x.shape.length).reverse))]
      (keepIdxs drop ((List.range x.shape.length).reverse)) [] = [] := by
    unfold unknownDims
    apply List.filter_eq_nil_iff.mpr
    intro j hj
    rw [hout] at hj
    rcases List.mem_map.mp hj with ⟨i, hiK, rfl⟩
    have hi : i < x.shape.length := hKsub i hiK
    have hjR : x.shape.length - 1 - i ∈ (List.range x.shape.length).reverse := by
      rw [List.mem_reverse, List.mem_range]
      omega
    simp [knownLabels, hjR]
  -- assemble the pipeline
  unfold blockwiseChunksNoAlign blockwiseChunks
  dsimp only
  rw [hunk]
  rw [if_neg (by simp)]
  rw [if_neg (by simp)]
  unfold chunksFromChunkss
  dsimp only
  rw [show applyNewAxes (buildChunkssNoAlign
      [(x, some ((List.range x.shape.length).reverse))]) [] = buildChunkssNoAlign
      [(x, some ((List.range x.shape.length).reverse))] from rfl]
  rw [hlabels]
  dsimp only
  rw [hmapf]
  exact hadj

/-- Pushing `blockwise_squeeze_core` through the `_map_blocks` plumbing. -/
theorem mapBlocks_squeeze (x : ZArr) (drop : List Nat)
    (hlen : x.chunks.length = x.shape.length)
    (hdrop : ∀ i ∈ drop, i < x.shape.length) :
    mapBlocksChunks x (keepIdxs drop x.chunks) drop = .ok (keepIdxs drop x.chunks) := by
  have hlencore : (keepIdxs drop ((List.range x.shape.length).reverse)).length
      = (keepIdxs drop x.chunks).length := by
    rw [keepIdxs_reverse_range, keepIdxs_eq drop x.chunks [], hlen]
    simp
  unfold mapBlocksChunks
  dsimp only
  by_cases hdnil : drop = []
  · subst hdnil
    simp only [List.isEmpty_nil]
    rw [if_pos trivial]
    dsimp only
    have hRlen : ((List.range x.shape.length).reverse).length = x.shape.length := by simp
    rw [if_neg (by rw [keepIdxs_nil, hRlen, hlen]; omega)]
    dsimp only
    rw [if_neg (by rw [keepIdxs_nil, hRlen, hlen]; omega)]
    have h := blockwise_squeeze_core x [] hlen
    rw [keepIdxs_nil, keepIdxs_nil] at h
    rw [keepIdxs_nil]
    exact h
  · have hne : drop.isEmpty = false := by
      cases drop with
      | nil => exact absurd rfl hdnil
      | cons a l => rfl
    rw [hne]
    rw [if_neg (by simp)]
    have hany : (drop.any fun i => decide (((List.range x.shape.length).reverse).length ≤ i))
        = false := by
      apply List.any_eq_false.mpr
      intro i hi
      have hlt := hdrop i hi
      simp only [List.length_reverse, List.length_range, decide_eq_true_eq]
      omega
    rw [hany]
    rw [if_neg (by simp)]
    dsimp only
    have hmapid : drop.map (fun i => i % ((List.range x.shape.length).reverse).length)
        = drop := by
      have h1 : drop.map (fun i => i % ((List.range x.shape.length).reverse).length)
          = drop.map (fun i => i) := by
        apply List.map_congr_left
        intro i hi
        simp only [List.length_reverse, List.length_range]
        exact Nat.mod_eq_of_lt (hdrop i hi)
      rw [h1, List.map_id']
    rw [hmapid]
    rw [if_neg (by rw [hlencore]; omega)]
    dsimp only
    rw [if_neg (by rw [hlencore]; omega)]
    exact blockwise_squeeze_core x drop hlen

theorem pyGet_some_bounds {l : List Nat} {i : Int} {s : Nat}
    (h : pyGet l i = some s) : -(l.length : Int) ≤ i ∧ i < (l.length : Int) := by
  unfold pyGet at h
  split at h
  · rename_i h0
    have hb : i.toNat < l.length := by
      by_contra hb
      rw [List.getElem?_eq_none (by omega)] at h
      cases h
    omega
  · split at h
    · rename_i h0 hneg
      omega
    · cases h

theorem anyShapeNotOne_false (shape : List Nat) :
    ∀ (axis : List Int), (∀ i ∈ axis, pyGet shape i = some 1) →
      anyShapeNotOne shape axis = .ok false := by
  intro axis
  induction axis with
  | nil => intro _; rfl
  | cons i rest ih =>
    intro h
    unfold anyShapeNotOne
    rw [h i (List.mem_cons_self i rest)]
    simp only [ne_eq, not_true_eq_false, if_false, reduceIte]
    exact ih (fun j hj => h j (List.mem_cons_of_mem i hj))

theorem anyShapeNotOne_true (shape : List Nat) :
    ∀ (axis : List Int), (∀ i ∈ axis, (pyGet shape i).isSome) →
      (∃ i ∈ axis, pyGet shape i ≠ some 1) →
      anyShapeNotOne shape axis = .ok true := by
  intro axis
  induction axis with
  | nil =>
    intro _ hbad
    rcases hbad with ⟨_, hmem, _⟩
    cases hmem
  | cons i rest ih =>
    intro hsome hbad
    rcases Option.isSome_iff_exists.mp (hsome i (List.mem_cons_self i rest)) with ⟨s, hs⟩
    unfold anyShapeNotOne
    rw [hs]
    by_cases h1 : s = 1
    · subst h1
      simp only [ne_eq, not_true_eq_false, if_false, reduceIte]
      apply ih (fun j hj => hsome j (List.mem_cons_of_mem i hj))
      rcases hbad with ⟨j, hjm, hjbad⟩
      rcases List.mem_cons.mp hjm with rfl | hjr
      · exact absurd hs hjbad
      · exact ⟨j, hjr, hjbad⟩
    · dsimp only
      rw [if_pos h1]

theorem validateAxis_ok (n : Nat) :
    ∀ (axis : List Int), (∀ a ∈ axis, -(n : Int) ≤ a ∧ a < (n : Int)) →
      ∃ ns, validateAxis n axis = .ok ns ∧ (∀ m ∈ ns, m < n) := by
  intro axis
  induction axis with
  | nil => exact fun _ => ⟨[], rfl, by simp⟩
  | cons a rest ih =>
    intro h
    obtain ⟨ns, hns, hbnd⟩ := ih (fun b hb => h b (List.mem_cons_of_mem a hb))
    have hb := h a (List.mem_cons_self a rest)
    have hn : (0 : Int) < (n : Int) := by omega
    have hmod1 : 0 ≤ a % (n : Int) := Int.emod_nonneg a (by omega)
    have hmod2 : a % (n : Int) < (n : Int) := Int.emod_lt_of_pos a hn
    refine ⟨(a % (n : Int)).toNat :: ns, ?_, ?_⟩
    · unfold validateAxis
      rw [if_pos hb, hns]
    · intro m hm
      rcases List.mem_cons.mp hm with rfl | hmr
      · omega
      · exact hbnd m hmr

/-- C10: `squeeze` (`ops.py` lines 417-430) raises
`ValueError("cannot squeeze axis with size other than one")` whenever a
requested (in-range) axis has size other than one, before axis validation and
before the `map_blocks` operation that would add a node to the plan (the
returned value is the error alone); when every requested axis has size one,
the output chunk structure produced by the whole
`map_blocks`/`blockwise` pipeline is the input's chunk structure with the
(normalized) requested axes removed. -/
theorem squeeze_semantics :
    (∀ (x : ZArr) (axis : List Int),
        (∀ i ∈ axis, (pyGet x.shape i).isSome) →
        (∃ i ∈ axis, pyGet x.shape i ≠ some 1) →
        squeezeModel x axis
          = .error (.valueError "cannot squeeze axis with size other than one")) ∧
    (∀ (x : ZArr) (axis : List Int),
        (∀ i ∈ axis, pyGet x.shape i = some 1) →
        x.chunks.length = x.shape.length →
        ∃ axisN, validateAxis x.shape.length axis = .ok axisN ∧
          squeezeModel x axis = .ok (keepIdxs axisN x.chunks)) := by
  constructor
  · intro x axis hsome hbad
    unfold squeezeModel
    rw [anyShapeNotOne_true x.shape axis hsome hbad]
  · intro x axis hone hlen
    have hbounds : ∀ a ∈ axis, -(x.shape.length : Int) ≤ a ∧ a < (x.shape.length : Int) :=
      fun a ha => pyGet_some_bounds (hone a ha)
    obtain ⟨ns, hns, hbnd⟩ := validateAxis_ok x.shape.length axis hbounds
    refine ⟨ns, hns, ?_⟩
    unfold squeezeModel
    rw [anyShapeNotOne_false x.shape axis hone]
    dsimp only
    rw [hns]
    exact mapBlocks_squeeze x ns hlen hbnd

theorem squeeze_semantics_witness :
    squeezeModel { name := 0, shape := [3, 1, 2], chunks := [[2, 1], [1], [2]] } [1]
      = .ok [[2, 1], [2]] ∧
    squeezeModel { name := 0, shape := [3, 1, 2], chunks := [[2, 1], [1], [2]] } [0]
      = .error (.valueError "cannot squeeze axis with size other than one") := by
  constructor
  · obtain ⟨axisN, hv, hk⟩ := squeeze_semantics.2
      { name := 0, shape := [3, 1, 2], chunks := [[2, 1], [1], [2]] } [1]
      (by decide) (by rfl)
    have hv1 : validateAxis
        ({ name := 0, shape := [3, 1, 2], chunks := [[2, 1], [1], [2]] } : ZArr).shape.length
        [1] = .ok [1] := by rfl
    rw [hv1] at hv
    injection hv with hvv
    subst hvv
    exact hk
  · exact squeeze_semantics.1
      { name := 0, shape := [3, 1, 2], chunks := [[2, 1], [1], [2]] } [0]
      (by decide) ⟨0, by decide, by decide⟩

/-! ### Evaluation machinery for the fusion optimizer -/

theorem lookupAll_cons_some {V : Type} {m : List (Nat × V)} {a : Nat} {L : List Nat}
    {vs : List V} (h : lookupAll m (a :: L) = some vs) :
    ∃ v vr, alookup a m = some v ∧ lookupAll m L = some vr ∧ vs = v :: vr := by
  unfold lookupAll at h
  cases ha : alookup a m with
  | none => rw [ha] at h; cases h
  | some v =>
    rw [ha] at h
    cases hr : lookupAll m L with
    | none => rw [hr] at h; cases h
    | some vr =>
      rw [hr] at h
      cases h
      exact ⟨v, vr, rfl, rfl, rfl⟩

theorem lookupAll_congr {V : Type} (m1 m2 : List (Nat × V)) :
    ∀ {L : List Nat}, (∀ a ∈ L, alookup a m1 = alookup a m2) →
      lookupAll m1 L = lookupAll m2 L := by
  intro L
  induction L with
  | nil => intro _; rfl
  | cons a rest ih =>
    intro h
    unfold lookupAll
    rw [h a (List.mem_cons_self a rest), ih (fun b hb => h b (List.mem_cons_of_mem a hb))]

theorem lookupAll_append {V : Type} {m : List (Nat × V)} :
    ∀ {l1 l2 : List Nat} {w1 w2 : List V},
      lookupAll m l1 = some w1 → lookupAll m l2 = some w2 →
      lookupAll m (l1 ++ l2) = some (w1 ++ w2) := by
  intro l1
  induction l1 with
  | nil =>
    intro l2 w1 w2 h1 h2
    cases h1
    exact h2
  | cons a rest ih =>
    intro l2 w1 w2 h1 h2
    obtain ⟨v, vr, hv, hvr, rfl⟩ := lookupAll_cons_some h1
    rw [List.cons_append]
    unfold lookupAll
    rw [hv, ih hvr h2]
    rfl

theorem lookupAll_length {V : Type} {m : List (Nat × V)} :
    ∀ {L : List Nat} {vs : List V}, lookupAll m L = some vs → vs.length = L.length := by
  intro L
  induction L with
  | nil => intro vs h; cases h; rfl
  | cons a rest ih =>
    intro vs h
    obtain ⟨v, vr, _, hvr, rfl⟩ := lookupAll_cons_some h
    simp [ih hvr]

theorem lookupAll_isSome {V : Type} {m : List (Nat × V)} :
    ∀ {L : List Nat}, (∀ a ∈ L, (alookup a m).isSome = true) →
      ∃ vs, lookupAll m L = some vs := by
  intro L
  induction L with
  | nil => intro _; exact ⟨[], rfl⟩
  | cons a rest ih =>
    intro h
    obtain ⟨v, hv⟩ := Option.isSome_iff_exists.mp (h a (List.mem_cons_self a rest))
    obtain ⟨vs, hvs⟩ := ih (fun b hb => h b (List.mem_cons_of_mem a hb))
    refine ⟨v :: vs, ?_⟩
    unfold lookupAll
    rw [hv, hvs]

theorem fusedIns_cons {V : Type} (g : PGraph V) (a : Nat) (rest : List Nat) :
    fusedIns g (a :: rest)
      = (if eligibleIn g a then predIns g a else [a]) ++ fusedIns g rest := by
  unfold fusedIns
  rw [List.map_cons, List.flatten_cons]

theorem fusedArgs_cons {V : Type} (g : PGraph V) (a : Nat) (rest : List Nat)
    (vs : List V) :
    fusedArgs g (a :: rest) vs =
      match producerOf g a with
      | some p =>
        if p.fusable then
          p.f (vs.take p.ins.length) :: fusedArgs g rest (vs.drop p.ins.length)
        else
          match vs with
          | [] => []
          | v :: vr => v :: fusedArgs g rest vr
      | none =>
        match vs with
        | [] => []
        | v :: vr => v :: fusedArgs g rest vr := rfl

/-- Composition correctness of the fused block function: if the original
consumer's operand values are available in `env`, each eligible operand's
value is consistent with its producer, and `env'` agrees with `env` outside
the removed set, then looking up the fused inputs in `env'` and splitting
them through `fusedArgs` recomputes exactly the original operand values. -/
theorem fusedArgs_spec {V : Type} (g : PGraph V) (R : List Nat)
    (env env' : List (Nat × V))
    (hagree : ∀ k, k ∉ R → alookup k env' = alookup k env) :
    ∀ (ins : List Nat) (vs : List V),
      (∀ a ∈ ins, ∀ p, producerOf g a = some p → p.fusable = true →
        (∃ ws, lookupAll env p.ins = some ws ∧ alookup a env = some (p.f ws)) ∧
          (∀ b ∈ p.ins, b ∉ R)) →
      (∀ a ∈ ins, eligibleIn g a = false → a ∉ R) →
      lookupAll env ins = some vs →
      ∃ vs', lookupAll env' (fusedIns g ins) = some vs' ∧ fusedArgs g ins vs' = vs := by
  intro ins
  induction ins with
  | nil =>
    intro vs _ _ hvs
    cases hvs
    exact ⟨[], rfl, rfl⟩
  | cons a rest ih =>
    intro vs helig hinelig hvs
    obtain ⟨v, vr, hv, hvr, rfl⟩ := lookupAll_cons_some hvs
    obtain ⟨vs'', hvs'', hfa⟩ := ih vr
      (fun b hb => helig b (List.mem_cons_of_mem a hb))
      (fun b hb => hinelig b (List.mem_cons_of_mem a hb)) hvr
    rw [fusedIns_cons]
    cases hprod : producerOf g a with
    | some p =>
      by_cases hfus : p.fusable = true
      · have helig1 := helig a (List.mem_cons_self a rest) p hprod hfus
        obtain ⟨⟨ws, hws, hva⟩, hpR⟩ := helig1
        have hveq : v = p.f ws := by
          rw [hv] at hva
          exact Option.some.inj hva
        have heli : eligibleIn g a = true := by
          unfold eligibleIn
          rw [hprod]
          exact hfus
        rw [if_pos heli]
        have hpred : predIns g a = p.ins := by
          unfold predIns
          rw [hprod]
        rw [hpred]
        have hws' : lookupAll env' p.ins = some ws := by
          rw [lookupAll_congr env' env (fun b hb => hagree b (hpR b hb))]
          exact hws
        refine ⟨ws ++ vs'', lookupAll_append hws' hvs'', ?_⟩
        rw [fusedArgs_cons, hprod]
        dsimp only
        rw [if_pos hfus]
        have hwlen : ws.length = p.ins.length := lookupAll_length hws
        rw [← hwlen, List.take_left, List.drop_left]
        rw [hfa, hveq]
      · have heli : eligibleIn g a = false := by
          unfold eligibleIn
          rw [hprod]
          exact Bool.not_eq_true _ ▸ (by simpa using hfus)
        have haR : a ∉ R := hinelig a (List.mem_cons_self a rest) heli
        rw [if_neg (by rw [heli]; exact Bool.false_ne_true)]
        have hva' : alookup a env' = some v := by rw [hagree a haR]; exact hv
        refine ⟨v :: vs'', ?_, ?_⟩
        · show lookupAll env' (a :: fusedIns g rest) = _
          unfold lookupAll
          rw [hva', hvs'']
        · rw [fusedArgs_cons, hprod]
          dsimp only
          rw [if_neg hfus]
          rw [hfa]
    | none =>
      have heli : eligibleIn g a = false := by
        unfold eligibleIn
        rw [hprod]
      have haR : a ∉ R := hinelig a (List.mem_cons_self a rest) heli
      rw [if_neg (by rw [heli]; exact Bool.false_ne_true)]
      have hva' : alookup a env' = some v := by rw [hagree a haR]; exact hv
      refine ⟨v :: vs'', ?_, ?_⟩
      · show lookupAll env' (a :: fusedIns g rest) = _
        unfold lookupAll
        rw [hva', hvs'']
      · rw [fusedArgs_cons, hprod]
        dsimp only
        rw [hfa]

theorem lookupAll_some_isSome {V : Type} {m : List (Nat × V)} :
    ∀ {L : List Nat} {ws : List V}, lookupAll m L = some ws →
      ∀ a ∈ L, (alookup a m).isSome = true := by
  intro L
  induction L with
  | nil => intro ws _ a ha; cases ha
  | cons b rest ih =>
    intro ws h a ha
    obtain ⟨v, vr, hv, hvr, rfl⟩ := lookupAll_cons_some h
    rcases List.mem_cons.mp ha with rfl | har
    · rw [hv]; rfl
    · exact ih hvr a har

theorem nodup_out_unique {V : Type} :
    ∀ (g : PGraph V), (g.map (fun op => op.out)).Nodup →
      ∀ p1 ∈ g, ∀ p2 ∈ g, p1.out = p2.out → p1 = p2 := by
  intro g
  induction g with
  | nil => intro _ p1 h1; cases h1
  | cons q rest ih =>
    intro hnd p1 h1 p2 h2 hout
    rw [List.map_cons] at hnd
    have hq := (List.nodup_cons.mp hnd).1
    have hrest := (List.nodup_cons.mp hnd).2
    rcases List.mem_cons.mp h1 with rfl | h1r
    · rcases List.mem_cons.mp h2 with rfl | h2r
      · rfl
      · exact absurd (hout ▸ List.mem_map.mpr ⟨p2, h2r, rfl⟩) hq
    · rcases List.mem_cons.mp h2 with rfl | h2r
      · exact absurd (hout ▸ List.mem_map.mpr ⟨p1, h1r, rfl⟩) hq
      · exact ih hrest p1 h1r p2 h2r hout

theorem WFFrom_out_nodup {V : Type} :
    ∀ (g : PGraph V) (defined : List Nat), WFFrom defined g →
      (g.map (fun op => op.out)).Nodup ∧
        ∀ o ∈ g.map (fun op => op.out), o ∉ defined := by
  intro g
  induction g with
  | nil => intro defined _; exact ⟨List.nodup_nil, by simp⟩
  | cons op rest ih =>
    intro defined hwf
    obtain ⟨hfresh, _, hwfrest⟩ := hwf
    obtain ⟨hnd, hout⟩ := ih (op.out :: defined) hwfrest
    constructor
    · rw [List.map_cons]
      refine List.nodup_cons.mpr ⟨?_, hnd⟩
      intro hc
      exact (hout op.out hc) (List.mem_cons_self _ _)
    · intro o ho
      rw [List.map_cons] at ho
      rcases List.mem_cons.mp ho with rfl | hor
      · exact hfresh
      · intro hd
        exact (hout o hor) (List.mem_cons_of_mem _ hd)

theorem producerOf_spec {V : Type} {g : PGraph V} {a : Nat} {p : POp V}
    (h : producerOf g a = some p) : p ∈ g ∧ p.out = a := by
  refine ⟨List.mem_of_find?_eq_some h, ?_⟩
  have := List.find?_some h
  simpa using this

/-- The environment-preservation walk: executing the rewritten suffix from an
environment that agrees with the original's outside the removed arrays keeps
that agreement. -/
theorem eval_fuse_walk {V : Type} (g : PGraph V) (c : POp V) (R : List Nat)
    (hcg : c ∈ g)
    (huniq : ∀ p1 ∈ g, ∀ p2 ∈ g, p1.out = p2.out → p1 = p2)
    (hconsR : ∀ op ∈ g, op.out ≠ c.out → ∀ a ∈ op.ins, a ∉ R)
    (heligR : ∀ r ∈ R, eligibleIn g r = true) :
    ∀ (suffix : PGraph V) (defined : List Nat) (env env' : List (Nat × V)),
      suffix <:+ g →
      WFFrom defined suffix →
      (∀ k, (alookup k env).isSome = true ↔ k ∈ defined) →
      (∀ k, k ∉ R → alookup k env' = alookup k env) →
      (∀ p ∈ g, p.out ∈ defined →
        ∃ ws, lookupAll env p.ins = some ws ∧ alookup p.out env = some (p.f ws)) →
      ∀ n, n ∉ R →
        alookup n (evalOps ((suffix.filter (fun op => !(R.contains op.out))).map
            (fun op => if op.out == c.out then fuseOp g c else op)) env')
          = alookup n (evalOps suffix env) := by
  intro suffix
  induction suffix with
  | nil =>
    intro defined env env' _ _ _ hagree _ n hn
    exact hagree n hn
  | cons op rest ih =>
    intro defined env env' hsuf hwf hcov hagree hcons n hn
    obtain ⟨hfresh, hins, hwfrest⟩ := hwf
    have hopg : op ∈ g := hsuf.subset (List.mem_cons_self op rest)
    have hrestsuf : rest <:+ g := (List.suffix_cons op rest).trans hsuf
    have hsome : ∀ a ∈ op.ins, (alookup a env).isSome = true :=
      fun a ha => (hcov a).mpr (hins a ha)
    obtain ⟨vs, hvs⟩ := lookupAll_isSome hsome
    have hskip : ∀ a ∈ op.ins, alookup a ((op.out, op.f vs) :: env) = alookup a env := by
      intro a ha
      rw [alookup_cons, if_neg ?_]
      intro h
      apply hfresh
      rw [h]
      exact hins a ha
    have hcov2 : ∀ k, (alookup k ((op.out, op.f vs) :: env)).isSome = true
        ↔ k ∈ op.out :: defined := by
      intro k
      rw [alookup_cons]
      by_cases hk : op.out = k
      · subst hk
        simp
      · rw [if_neg hk, hcov k]
        constructor
        · exact fun h => List.mem_cons_of_mem _ h
        · intro h
          rcases List.mem_cons.mp h with rfl | hd
          · exact absurd rfl hk
          · exact hd
    have hcons2 : ∀ p ∈ g, p.out ∈ op.out :: defined →
        ∃ ws, lookupAll ((op.out, op.f vs) :: env) p.ins = some ws ∧
          alookup p.out ((op.out, op.f vs) :: env) = some (p.f ws) := by
      intro p hp hpd
      rcases List.mem_cons.mp hpd with hpe | hpold
      · have hpeq : p = op := huniq p hp op hopg hpe
        subst hpeq
        refine ⟨vs, ?_, ?_⟩
        · rw [lookupAll_congr _ env hskip]
          exact hvs
        · rw [alookup_cons, if_pos hpe.symm]
      · obtain ⟨ws, hws, hvp⟩ := hcons p hp hpold
        have hinsd : ∀ a ∈ p.ins, a ∈ defined := by
          intro a ha
          exact (hcov a).mp (lookupAll_some_isSome hws a ha)
        refine ⟨ws, ?_, ?_⟩
        · rw [lookupAll_congr _ env ?_]
          · exact hws
          · intro a ha
            rw [alookup_cons, if_neg ?_]
            intro h
            apply hfresh
            rw [h]
            exact hinsd a ha
        · rw [alookup_cons, if_neg ?_]
          · exact hvp
          · intro h
            apply hfresh
            rw [h]
            exact hpold
    have hevalorig : evalOps (op :: rest) env = evalOps rest ((op.out, op.f vs) :: env) := by
      conv_lhs => unfold evalOps
      rw [hvs]
    by_cases hR : op.out ∈ R
    · -- the op is fused away: dropped on the rewritten side
      have hfil : (op :: rest).filter (fun q => !(R.contains q.out))
          = rest.filter (fun q => !(R.contains q.out)) := by
        rw [List.filter_cons, if_neg (by simp [hR])]
      have hagree2 : ∀ k, k ∉ R → alookup k env' = alookup k ((op.out, op.f vs) :: env) := by
        intro k hk
        rw [alookup_cons, if_neg ?_, hagree k hk]
        intro h
        apply hk
        rw [← h]
        exact hR
      rw [hfil, hevalorig]
      exact ih (op.out :: defined) ((op.out, op.f vs) :: env) env'
        hrestsuf hwfrest hcov2 hagree2 hcons2 n hn
    · have hfil : (op :: rest).filter (fun q => !(R.contains q.out))
          = op :: rest.filter (fun q => !(R.contains q.out)) := by
        rw [List.filter_cons, if_pos (by simp [hR])]
      rw [hfil, List.map_cons, hevalorig]
      by_cases hct : op.out = c.out
      · -- this is the fusion target: it becomes the composed op
        have hopc : op = c := huniq op hopg c hcg hct
        subst hopc
        rw [if_pos (by simp)]
        have helig : ∀ a ∈ op.ins, ∀ p, producerOf g a = some p → p.fusable = true →
            (∃ ws, lookupAll env p.ins = some ws ∧ alookup a env = some (p.f ws)) ∧
              (∀ b ∈ p.ins, b ∉ R) := by
          intro a ha p hp _
          obtain ⟨hpg, hpa⟩ := producerOf_spec hp
          have had : a ∈ defined := hins a ha
          have hpd : p.out ∈ defined := by rw [hpa]; exact had
          obtain ⟨ws, hws, hvp⟩ := hcons p hpg hpd
          refine ⟨⟨ws, hws, by rw [← hpa]; exact hvp⟩, ?_⟩
          intro b hb
          refine hconsR p hpg ?_ b hb
          rw [hpa]
          intro h
          apply hfresh
          rw [← h]
          exact had
        have hinelig : ∀ a ∈ op.ins, eligibleIn g a = false → a ∉ R := by
          intro a _ he ha
          rw [heligR a ha] at he
          cases he
        obtain ⟨vs', hvs', hfa⟩ := fusedArgs_spec g R env env' hagree op.ins vs
          helig hinelig hvs
        have hevalfused : evalOps (fuseOp g op
              :: (rest.filter (fun q => !(R.contains q.out))).map
                (fun q => if q.out == op.out then fuseOp g op else q)) env'
            = evalOps ((rest.filter (fun q => !(R.contains q.out))).map
                (fun q => if q.out == op.out then fuseOp g op else q))
              ((op.out, op.f vs) :: env') := by
          conv_lhs => unfold evalOps
          dsimp only [fuseOp]
          rw [hvs']
          dsimp only
          rw [hfa]
        rw [hevalfused]
        have hagree2 : ∀ k, k ∉ R →
            alookup k ((op.out, op.f vs) :: env') = alookup k ((op.out, op.f vs) :: env) := by
          intro k hk
          rw [alookup_cons, alookup_cons]
          by_cases hke : op.out = k
          · rw [if_pos hke, if_pos hke]
          · rw [if_neg hke, if_neg hke, hagree k hk]
        exact ih (op.out :: defined) ((op.out, op.f vs) :: env)
          ((op.out, op.f vs) :: env') hrestsuf hwfrest hcov2 hagree2 hcons2 n hn
      · -- an untouched op
        rw [if_neg (by simp [hct])]
        have hinsR : ∀ a ∈ op.ins, a ∉ R := hconsR op hopg hct
        have hvs' : lookupAll env' op.ins = some vs := by
          rw [lookupAll_congr env' env (fun a ha => hagree a (hinsR a ha))]
          exact hvs
        have hevalstep : evalOps (op :: (rest.filter (fun q => !(R.contains q.out))).map
              (fun q => if q.out == c.out then fuseOp g c else q)) env'
            = evalOps ((rest.filter (fun q => !(R.contains q.out))).map
              (fun q => if q.out == c.out then fuseOp g c else q))
              ((op.out, op.f vs) :: env') := by
          conv_lhs => unfold evalOps
          rw [hvs']
        rw [hevalstep]
        have hagree2 : ∀ k, k ∉ R →
            alookup k ((op.out, op.f vs) :: env') = alookup k ((op.out, op.f vs) :: env) := by
          intro k hk
          rw [alookup_cons, alookup_cons]
          by_cases hke : op.out = k
          · rw [if_pos hke, if_pos hke]
          · rw [if_neg hke, if_neg hke, hagree k hk]
        exact ih (op.out :: defined) ((op.out, op.f vs) :: env)
          ((op.out, op.f vs) :: env') hrestsuf hwfrest hcov2 hagree2 hcons2 n hn

theorem removedArrays_spec {V : Type} {g : PGraph V} {c : POp V} {r : Nat}
    (hr : r ∈ removedArrays g c) :
    r ∈ c.ins ∧ eligibleIn g r = true ∧ consumersOther g c.out r = false := by
  have h := List.mem_filter.mp hr
  have h2 := h.2
  simp only [Bool.and_eq_true, Bool.not_eq_true'] at h2
  exact ⟨h.1, h2.1, h2.2⟩

theorem consumersOther_false {V : Type} {g : PGraph V} {cOut r : Nat}
    (h : consumersOther g cOut r = false) :
    ∀ op ∈ g, op.out ≠ cOut → r ∉ op.ins := by
  intro op hop hne hrin
  unfold consumersOther at h
  rw [List.any_eq_false] at h
  apply h op hop
  rw [Bool.and_eq_true]
  exact ⟨by simpa using hne, by simpa using hrin⟩

/-- The `out` of a rewritten op is unchanged. -/
theorem mappedOut {V : Type} (g : PGraph V) (c : POp V) (q : POp V) (t : Nat) :
    (if q.out == t then fuseOp g c else q).out = if q.out = t then c.out else q.out := by
  by_cases h : q.out = t
  · rw [if_pos (by simpa using h), if_pos h]
    rfl
  · rw [if_neg (by simpa using h), if_neg h]

theorem outsOf_fuseTargetWith {V : Type} (guard : PGraph V → POp V → Bool)
    (g : PGraph V) (t : Nat) {n : Nat}
    (hn : n ∈ outsOf (fuseTargetWith guard g t)) :
    n ∈ outsOf g := by
  unfold fuseTargetWith at hn
  cases hfind : g.find? (fun op => op.out == t) with
  | none => rw [hfind] at hn; exact hn
  | some c =>
    rw [hfind] at hn
    dsimp only at hn
    by_cases hg : guard g c = true
    · rw [if_pos hg] at hn
      have hct : c.out = t := by have := List.find?_some hfind; simpa using this
      unfold outsOf at hn ⊢
      rcases List.mem_map.mp hn with ⟨op1, hop1, rfl⟩
      rcases List.mem_map.mp hop1 with ⟨q, hq, rfl⟩
      have hqg : q ∈ g := List.mem_of_mem_filter hq
      rw [mappedOut]
      by_cases hqt : q.out = t
      · rw [if_pos hqt, hct, ← hqt]
        exact List.mem_map.mpr ⟨q, hqg, rfl⟩
      · rw [if_neg hqt]
        exact List.mem_map.mpr ⟨q, hqg, rfl⟩
    · rw [if_neg hg] at hn
      exact hn

/-- Single fusion step soundness: every array that survives the rewrite
evaluates to the same contents as in the original plan. -/
theorem fuseTargetWith_sound {V : Type} (guard : PGraph V → POp V → Bool)
    (g : PGraph V) (t : Nat) (hwf : WF g) :
    ∀ n ∈ outsOf (fuseTargetWith guard g t),
      valOf (fuseTargetWith guard g t) n = valOf g n := by
  intro n hn
  unfold fuseTargetWith at hn ⊢
  cases hfind : g.find? (fun op => op.out == t) with
  | none => rfl
  | some c =>
    rw [hfind] at hn
    dsimp only at hn ⊢
    by_cases hg : guard g c = true
    · rw [if_pos hg] at hn ⊢
      have hcg : c ∈ g := List.mem_of_find?_eq_some hfind
      have hct : c.out = t := by have := List.find?_some hfind; simpa using this
      have heligR : ∀ r ∈ removedArrays g c, eligibleIn g r = true :=
        fun r hr => (removedArrays_spec hr).2.1
      have hconsR : ∀ op ∈ g, op.out ≠ c.out → ∀ a ∈ op.ins, a ∉ removedArrays g c := by
        intro op hop hne a ha haR
        exact consumersOther_false (removedArrays_spec haR).2.2 op hop hne ha
      have huniq := nodup_out_unique g (WFFrom_out_nodup g [] hwf).1
      have hnR : n ∉ removedArrays g c := by
        unfold outsOf at hn
        rcases List.mem_map.mp hn with ⟨op1, hop1, rfl⟩
        rcases List.mem_map.mp hop1 with ⟨q, hq, rfl⟩
        have hqf := (List.mem_filter.mp hq).2
        have hqR : q.out ∉ removedArrays g c := by simpa using hqf
        rw [mappedOut]
        by_cases hqt : q.out = t
        · rw [if_pos hqt, hct, ← hqt]
          exact hqR
        · rw [if_neg hqt]
          exact hqR
      unfold valOf
      rw [← hct]
      exact eval_fuse_walk g c (removedArrays g c) hcg huniq hconsR heligR g [] [] []
        (List.suffix_refl g) hwf (by intro k; simp [alookup])
        (fun k _ => rfl)
        (by intro p _ hpd; exact absurd hpd (List.not_mem_nil _))
        n hnR
    · rw [if_neg hg]

/-- Membership in the fused inputs comes either from a fused-away producer's
inputs or is a directly passed-through operand. -/
theorem mem_fusedIns {V : Type} {g : PGraph V} {ins : List Nat} {b : Nat}
    (hb : b ∈ fusedIns g ins) :
    (∃ a ∈ ins, ∃ p, producerOf g a = some p ∧ p.fusable = true ∧ b ∈ p.ins) ∨
      (∃ a ∈ ins, eligibleIn g a = false ∧ b = a) := by
  unfold fusedIns at hb
  rcases List.mem_flatten.mp hb with ⟨l, hl, hbl⟩
  rcases List.mem_map.mp hl with ⟨a, ha, rfl⟩
  by_cases he : eligibleIn g a = true
  · rw [if_pos he] at hbl
    left
    refine ⟨a, ha, ?_⟩
    unfold eligibleIn at he
    cases hp : producerOf g a with
    | none => rw [hp] at he; cases he
    | some p =>
      rw [hp] at he
      unfold predIns at hbl
      rw [hp] at hbl
      exact ⟨p, rfl, he, hbl⟩
  · rw [if_neg he] at hbl
    right
    rcases List.mem_singleton.mp hbl with rfl
    exact ⟨b, ha, by simpa using he, rfl⟩

/-- The well-formedness preservation walk. -/
theorem WF_fuse_walk {V : Type} (g : PGraph V) (c : POp V) (R : List Nat)
    (hcg : c ∈ g)
    (huniq : ∀ p1 ∈ g, ∀ p2 ∈ g, p1.out = p2.out → p1 = p2)
    (hconsR : ∀ op ∈ g, op.out ≠ c.out → ∀ a ∈ op.ins, a ∉ R)
    (heligR : ∀ r ∈ R, eligibleIn g r = true) :
    ∀ (suffix : PGraph V) (defined : List Nat),
      suffix <:+ g →
      WFFrom defined suffix →
      (∀ p ∈ g, p.out ∈ defined → ∀ b ∈ p.ins, b ∈ defined) →
      WFFrom (defined.filter (fun k => !(R.contains k)))
        ((suffix.filter (fun op => !(R.contains op.out))).map
          (fun op => if op.out == c.out then fuseOp g c else op)) := by
  intro suffix
  induction suffix with
  | nil => intro defined _ _ _; trivial
  | cons op rest ih =>
    intro defined hsuf hwf hsub
    obtain ⟨hfresh, hins, hwfrest⟩ := hwf
    have hopg : op ∈ g := hsuf.subset (List.mem_cons_self op rest)
    have hrestsuf : rest <:+ g := (List.suffix_cons op rest).trans hsuf
    have hsub2 : ∀ p ∈ g, p.out ∈ op.out :: defined → ∀ b ∈ p.ins, b ∈ op.out :: defined := by
      intro p hp hpd b hb
      rcases List.mem_cons.mp hpd with hpe | hpold
      · have : p = op := huniq p hp op hopg hpe
        subst this
        exact List.mem_cons_of_mem _ (hins b hb)
      · exact List.mem_cons_of_mem _ (hsub p hp hpold b hb)
    by_cases hR : op.out ∈ R
    · have hfil : (op :: rest).filter (fun q => !(R.contains q.out))
          = rest.filter (fun q => !(R.contains q.out)) := by
        rw [List.filter_cons, if_neg (by simp [hR])]
      rw [hfil]
      have := ih (op.out :: defined) hrestsuf hwfrest hsub2
      have hfd : (op.out :: defined).filter (fun k => !(R.contains k))
          = defined.filter (fun k => !(R.contains k)) := by
        rw [List.filter_cons, if_neg (by simp [hR])]
      rw [hfd] at this
      exact this
    · have hfil : (op :: rest).filter (fun q => !(R.contains q.out))
          = op :: rest.filter (fun q => !(R.contains q.out)) := by
        rw [List.filter_cons, if_pos (by simp [hR])]
      rw [hfil, List.map_cons]
      have hfd : (op.out :: defined).filter (fun k => !(R.contains k))
          = op.out :: defined.filter (fun k => !(R.contains k)) := by
        rw [List.filter_cons, if_pos (by simp [hR])]
      have htail := ih (op.out :: defined) hrestsuf hwfrest hsub2
      rw [hfd] at htail
      by_cases hct : op.out = c.out
      · have hopc : op = c := huniq op hopg c hcg hct
        subst hopc
        rw [if_pos (by simp)]
        refine ⟨?_, ?_, ?_⟩
        · show op.out ∉ _
          intro hmem
          exact hfresh (List.mem_of_mem_filter hmem)
        · show ∀ b ∈ fusedIns g op.ins, b ∈ _
          intro b hb
          rcases mem_fusedIns hb with ⟨a, ha, p, hp, hpf, hbp⟩ | ⟨a, ha, hae, rfl⟩
          · obtain ⟨hpg, hpa⟩ := producerOf_spec hp
            have had : a ∈ defined := hins a ha
            have hpne : p.out ≠ op.out := by
              rw [hpa]
              intro h
              apply hfresh
              rw [← h]
              exact had
            have hbd : b ∈ defined := hsub p hpg (by rw [hpa]; exact had) b hbp
            have hbR : b ∉ R := hconsR p hpg hpne b hbp
            rw [List.mem_filter]
            exact ⟨hbd, by simpa using hbR⟩
          · have hbR : b ∉ R := by
              intro hbR
              rw [heligR b hbR] at hae
              cases hae
            rw [List.mem_filter]
            exact ⟨hins b ha, by simpa using hbR⟩
        · exact htail
      · rw [if_neg (by simpa using hct)]
        refine ⟨?_, ?_, ?_⟩
        · intro hmem
          exact hfresh (List.mem_of_mem_filter hmem)
        · intro a ha
          rw [List.mem_filter]
          refine ⟨hins a ha, ?_⟩
          have : a ∉ R := hconsR op hopg hct a ha
          simpa using this
        · exact htail

theorem fuseTargetWith_WF {V : Type} (guard : PGraph V → POp V → Bool)
    (g : PGraph V) (t : Nat) (hwf : WF g) : WF (fuseTargetWith guard g t) := by
  unfold fuseTargetWith
  cases hfind : g.find? (fun op => op.out == t) with
  | none => exact hwf
  | some c =>
    dsimp only
    by_cases hg : guard g c = true
    · rw [if_pos hg]
      have hcg : c ∈ g := List.mem_of_find?_eq_some hfind
      have heligR : ∀ r ∈ removedArrays g c, eligibleIn g r = true :=
        fun r hr => (removedArrays_spec hr).2.1
      have hconsR : ∀ op ∈ g, op.out ≠ c.out → ∀ a ∈ op.ins, a ∉ removedArrays g c := by
        intro op hop hne a ha haR
        exact consumersOther_false (removedArrays_spec haR).2.2 op hop hne ha
      have huniq := nodup_out_unique g (WFFrom_out_nodup g [] hwf).1
      have hct : c.out = t := by have := List.find?_some hfind; simpa using this
      have hwalk := WF_fuse_walk g c (removedArrays g c) hcg huniq hconsR heligR g []
        (List.suffix_refl g) hwf (by intro p _ hpd; exact absurd hpd (List.not_mem_nil _))
      rw [hct] at hwalk
      exact hwalk
    · rw [if_neg hg]
      exact hwf

/-- Sweep soundness: applying `fuseTargetWith` over any list of targets
preserves well-formedness and the values of all surviving arrays. -/
theorem sweepAux_sound {V : Type} (guard : PGraph V → POp V → Bool) :
    ∀ (names : List Nat) (g0 : PGraph V), WF g0 →
      WF (names.foldl (fun g1 t => fuseTargetWith guard g1 t) g0) ∧
      (∀ n ∈ outsOf (names.foldl (fun g1 t => fuseTargetWith guard g1 t) g0),
        n ∈ outsOf g0 ∧
          valOf (names.foldl (fun g1 t => fuseTargetWith guard g1 t) g0) n = valOf g0 n) := by
  intro names
  induction names with
  | nil =>
    intro g0 hwf
    exact ⟨hwf, fun n hn => ⟨hn, rfl⟩⟩
  | cons t rest ih =>
    intro g0 hwf
    rw [List.foldl_cons]
    have hwf1 : WF (fuseTargetWith guard g0 t) := fuseTargetWith_WF guard g0 t hwf
    obtain ⟨hwf2, hvals⟩ := ih (fuseTargetWith guard g0 t) hwf1
    refine ⟨hwf2, ?_⟩
    intro n hn
    obtain ⟨hn1, hval1⟩ := hvals n hn
    have hn0 : n ∈ outsOf g0 := outsOf_fuseTargetWith guard g0 t hn1
    refine ⟨hn0, ?_⟩
    rw [hval1]
    exact fuseTargetWith_sound guard g0 t hwf n hn1

theorem sweepFuse_sound {V : Type} (guard : PGraph V → POp V → Bool)
    (g : PGraph V) (hwf : WF g) :
    ∀ n ∈ outsOf (sweepFuse guard g), valOf (sweepFuse guard g) n = valOf g n := by
  intro n hn
  unfold sweepFuse at hn ⊢
  exact ((sweepAux_sound guard (g.map (fun op => op.out)) g hwf).2 n hn).2

/-- An array read by nobody (a terminal output) survives any fusion step and
is still read by nobody. -/
theorem notRead_survives {V : Type} (guard : PGraph V → POp V → Bool)
    (g : PGraph V) (t n : Nat) (hout : n ∈ outsOf g) (hnr : n ∉ allIns g) :
    n ∈ outsOf (fuseTargetWith guard g t) ∧ n ∉ allIns (fuseTargetWith guard g t) := by
  have hInsSub : ∀ (op : POp V), op ∈ g → ∀ a ∈ op.ins, a ∈ allIns g := by
    intro op hop a ha
    unfold allIns
    exact List.mem_flatten.mpr ⟨op.ins, List.mem_map.mpr ⟨op, hop, rfl⟩, ha⟩
  unfold fuseTargetWith
  cases hfind : g.find? (fun op => op.out == t) with
  | none => exact ⟨hout, hnr⟩
  | some c =>
    dsimp only
    by_cases hg : guard g c = true
    · rw [if_pos hg]
      have hcg : c ∈ g := List.mem_of_find?_eq_some hfind
      have hnR : n ∉ removedArrays g c := by
        intro hR
        exact hnr (hInsSub c hcg n (removedArrays_spec hR).1)
      constructor
      · unfold outsOf at hout ⊢
        rcases List.mem_map.mp hout with ⟨q, hq, rfl⟩
        apply List.mem_map.mpr
        refine ⟨if q.out == t then fuseOp g c else q, ?_, ?_⟩
        · apply List.mem_map.mpr
          refine ⟨q, ?_, rfl⟩
          rw [List.mem_filter]
          exact ⟨hq, by simpa using hnR⟩
        · by_cases hqt : q.out = t
          · rw [if_pos (by simpa using hqt)]
            show (fuseOp g c).out = q.out
            have hct : c.out = t := by have := List.find?_some hfind; simpa using this
            show c.out = q.out
            rw [hct, hqt]
          · rw [if_neg (by simpa using hqt)]
      · intro hmem
        apply hnr
        unfold allIns at hmem
        rcases List.mem_flatten.mp hmem with ⟨l, hl, hnl⟩
        rcases List.mem_map.mp hl with ⟨op1, hop1, rfl⟩
        rcases List.mem_map.mp hop1 with ⟨q, hq, rfl⟩
        have hqg : q ∈ g := List.mem_of_mem_filter hq
        by_cases hqt : q.out = t
        · rw [if_pos (by simpa using hqt)] at hnl
          have hnl2 : n ∈ fusedIns g c.ins := hnl
          rcases mem_fusedIns hnl2 with ⟨a, _, p, hp, _, hbp⟩ | ⟨a, ha, _, rfl⟩
          · exact hInsSub p (producerOf_spec hp).1 n hbp
          · exact hInsSub c hcg n ha
        · rw [if_neg (by simpa using hqt)] at hnl
          exact hInsSub q hqg n hnl
    · rw [if_neg hg]
      exact ⟨hout, hnr⟩

theorem notRead_sweep {V : Type} (guard : PGraph V → POp V → Bool) :
    ∀ (names : List Nat) (g0 : PGraph V) (n : Nat),
      n ∈ outsOf g0 → n ∉ allIns g0 →
      n ∈ outsOf (names.foldl (fun g1 t => fuseTargetWith guard g1 t) g0) := by
  intro names
  induction names with
  | nil => intro g0 n hout _; exact hout
  | cons t rest ih =>
    intro g0 n hout hnr
    rw [List.foldl_cons]
    obtain ⟨h1, h2⟩ := notRead_survives guard g0 t n hout hnr
    exact ih (fuseTargetWith guard g0 t) n h1 h2

/-! ### Chain graphs -/

theorem chainOps_WF {V : Type} [Inhabited V] :
    ∀ (fs : List (V → V)) (k : Nat) (defined : List Nat),
      k ∈ defined → (∀ d ∈ defined, d ≤ k) → WFFrom defined (chainOps k fs) := by
  intro fs
  induction fs with
  | nil => intro k defined _ _; trivial
  | cons f rest ih =>
    intro k defined hk hbound
    refine ⟨?_, ?_, ?_⟩
    · intro hmem
      have hb := hbound _ hmem
      dsimp only at hb
      omega
    · intro a ha
      rcases List.mem_singleton.mp ha with rfl
      exact hk
    · refine ih (k + 1) _ (List.mem_cons_self _ _) ?_
      intro d hd
      rcases List.mem_cons.mp hd with rfl | hdr
      · exact le_refl _
      · exact Nat.le_succ_of_le (hbound d hdr)

theorem chainGraph_WF {V : Type} [Inhabited V] (v : V) (fs : List (V → V)) :
    WF (chainGraph v fs) := by
  refine ⟨by simp, by simp, ?_⟩
  exact chainOps_WF fs 0 [0] (List.mem_singleton.mpr rfl) (by simp)

theorem chainOps_eval {V : Type} [Inhabited V] :
    ∀ (fs : List (V → V)) (k : Nat) (env : List (Nat × V)) (w : V),
      alookup k env = some w →
      alookup (k + fs.length) (evalOps (chainOps k fs) env)
        = some (fs.foldl (fun acc f => f acc) w) := by
  intro fs
  induction fs with
  | nil =>
    intro k env w hw
    simpa using hw
  | cons f rest ih =>
    intro k env w hw
    show alookup (k + (rest.length + 1)) (evalOps (_ :: chainOps (k + 1) rest) env) = _
    have hla : lookupAll env [k] = some [w] := by
      unfold lookupAll
      rw [hw]
      rfl
    conv_lhs => unfold evalOps
    rw [hla]
    have hstep := ih (k + 1) ((k + 1, f ([w].headI)) :: env) (f w)
      (by rw [alookup_cons, if_pos rfl]; rfl)
    have harith : k + (rest.length + 1) = (k + 1) + rest.length := by omega
    rw [harith, List.foldl_cons]
    exact hstep

theorem chainGraph_eval {V : Type} [Inhabited V] (v : V) (fs : List (V → V)) :
    valOf (chainGraph v fs) fs.length = some (fs.foldl (fun acc f => f acc) v) := by
  unfold valOf chainGraph
  conv_lhs => unfold evalOps
  have h0 : lookupAll ([] : List (Nat × V)) ([] : List Nat) = some [] := rfl
  rw [h0]
  have := chainOps_eval fs 0 [(0, v)] v (by rw [alookup_cons, if_pos rfl])
  simpa using this

theorem chainOps_out_mem {V : Type} [Inhabited V] :
    ∀ (fs : List (V → V)) (k : Nat), fs ≠ [] →
      (k + fs.length) ∈ outsOf (chainOps k fs) := by
  intro fs
  induction fs with
  | nil => intro k h; exact absurd rfl h
  | cons f rest ih =>
    intro k _
    show (k + (rest.length + 1)) ∈ (k + 1) :: outsOf (chainOps (k + 1) rest)
    by_cases hr : rest = []
    · subst hr
      simp
    · have := ih (k + 1) hr
      have harith : k + (rest.length + 1) = (k + 1) + rest.length := by omega
      rw [harith]
      exact List.mem_cons_of_mem _ this

theorem chainGraph_out_mem {V : Type} [Inhabited V] (v : V) (fs : List (V → V)) :
    fs.length ∈ outsOf (chainGraph v fs) := by
  show fs.length ∈ 0 :: outsOf (chainOps 0 fs)
  by_cases hf : fs = []
  · subst hf
    simp
  · exact List.mem_cons_of_mem _ (by simpa using chainOps_out_mem fs 0 hf)

theorem chainOps_allIns_lt {V : Type} [Inhabited V] :
    ∀ (fs : List (V → V)) (k b : Nat), b ∈ allIns (chainOps k fs) → b < k + fs.length := by
  intro fs
  induction fs with
  | nil => intro k b hb; cases hb
  | cons f rest ih =>
    intro k b hb
    have : b ∈ [k] ++ allIns (chainOps (k + 1) rest) := hb
    rcases List.mem_append.mp this with h1 | h2
    · rcases List.mem_singleton.mp h1 with rfl
      simp
    · have := ih (k + 1) b h2
      simp at this ⊢
      omega

theorem chainGraph_not_read {V : Type} [Inhabited V] (v : V) (fs : List (V → V)) :
    fs.length ∉ allIns (chainGraph v fs) := by
  intro hmem
  have : fs.length ∈ ([] : List Nat) ++ allIns (chainOps 0 fs) := hmem
  rw [List.nil_append] at this
  have := chainOps_allIns_lt fs 0 fs.length this
  omega

/-- C1: fusion preserves results.  For every fusable chain (any value type,
any source value, any list of single-stage functions), computing the
fully-fused plan and computing the unoptimized plan yield identical array
contents, both equal to the function composition applied to the source.  In
particular, the chain `a → negate → astype(float32) → negate` on the 3×3
integer array of `test_fusion` is fused to a single node and produces
`(-(-a)).astype(float32)` elementwise in both plans. -/
theorem fusion_preserves_results :
    (∀ (V : Type) [Inhabited V] (v : V) (fs : List (V → V)),
        valOf (fuseAllOptimizeDag (chainGraph v fs)) fs.length
            = valOf (chainGraph v fs) fs.length ∧
        valOf (chainGraph v fs) fs.length
            = some (fs.foldl (fun acc f => f acc) v)) ∧
    (structOf (fuseAllOptimizeDag fusionChainGraph) = [(0, []), (3, [0])] ∧
      valOf (fuseAllOptimizeDag fusionChainGraph) 3
          = some { dtype := DType.float32, data := [[1, 2, 3], [4, 5, 6], [7, 8, 9]] } ∧
      valOf fusionChainGraph 3
          = some { dtype := DType.float32, data := [[1, 2, 3], [4, 5, 6], [7, 8, 9]] }) := by
  constructor
  · intro V _ v fs
    constructor
    · have hmem : fs.length ∈ outsOf (fuseAllOptimizeDag (chainGraph v fs)) := by
        unfold fuseAllOptimizeDag sweepFuse
        exact notRead_sweep canFuseAny _ _ _ (chainGraph_out_mem v fs)
          (chainGraph_not_read v fs)
      exact sweepFuse_sound canFuseAny (chainGraph v fs) (chainGraph_WF v fs)
        fs.length hmem
    · exact chainGraph_eval v fs
  · refine ⟨by decide, by decide, by decide⟩

/-- C4: fusion preserves array sharing.  (1) For any graph, any fusion
policy and any target, an array with a consumer other than the target is
never fused away: its producing op survives the rewrite.  (2) Every
surviving array still computes the same contents as in the original graph.
(3) In the `test_fuse_other_dependents` graph (`b = -a`, `c = -b`,
`d = -b`), fusing at `c` keeps `b` (because `d` needs it) and both `c` and
`d` compute the same results as before. -/
theorem fusion_preserves_sharing :
    (∀ (V : Type) (guard : PGraph V → POp V → Bool) (g : PGraph V) (t b : Nat),
        b ∈ outsOf g → (∃ d ∈ g, d.out ≠ t ∧ b ∈ d.ins) →
        b ∈ outsOf (fuseTargetWith guard g t)) ∧
    (∀ (V : Type) (guard : PGraph V → POp V → Bool) (g : PGraph V) (t : Nat),
        WF g → ∀ n ∈ outsOf (fuseTargetWith guard g t),
          valOf (fuseTargetWith guard g t) n = valOf g n) ∧
    (structOf (fusePredecessorsModel otherDepsGraph 2)
        = [(0, []), (1, [0]), (2, [0]), (3, [1])] ∧
      valOf (fusePredecessorsModel otherDepsGraph 2) 2 = valOf otherDepsGraph 2 ∧
      valOf (fusePredecessorsModel otherDepsGraph 2) 3 = valOf otherDepsGraph 3) := by
  refine ⟨?_, ?_, by decide, by decide, by decide⟩
  · intro V guard g t b hb hd
    unfold fuseTargetWith
    cases hfind : g.find? (fun op => op.out == t) with
    | none => exact hb
    | some c =>
      dsimp only
      by_cases hg : guard g c = true
      · rw [if_pos hg]
        have hct : c.out = t := by have := List.find?_some hfind; simpa using this
        have hbR : b ∉ removedArrays g c := by
          intro hR
          obtain ⟨d, hdg, hdne, hdb⟩ := hd
          exact consumersOther_false (removedArrays_spec hR).2.2 d hdg
            (by rw [hct]; exact hdne) hdb
        unfold outsOf at hb ⊢
        rcases List.mem_map.mp hb with ⟨q, hq, rfl⟩
        apply List.mem_map.mpr
        refine ⟨if q.out == t then fuseOp g c else q, List.mem_map.mpr ⟨q, ?_, rfl⟩, ?_⟩
        · rw [List.mem_filter]
          exact ⟨hq, by simpa using hbR⟩
        · rw [mappedOut]
          by_cases hqt : q.out = t
          · rw [if_pos hqt, hct, hqt]
          · rw [if_neg hqt]
      · rw [if_neg hg]
        exact hb
  · intro V guard g t hwf
    exact fuseTargetWith_sound guard g t hwf

theorem otherDepsGraph_WF : WF otherDepsGraph := by
  refine ⟨by decide, ?_, by decide, ?_, by decide, ?_, by decide, ?_, trivial⟩
  · intro a ha
    cases ha
  · intro a ha
    rcases List.mem_singleton.mp ha with rfl
    decide
  · intro a ha
    rcases List.mem_singleton.mp ha with rfl
    decide
  · intro a ha
    rcases List.mem_singleton.mp ha with rfl
    decide

theorem fusion_preserves_sharing_witness :
    1 ∈ outsOf (fuseTargetWith canFuseAny otherDepsGraph 2) ∧
    valOf (fuseTargetWith canFuseAny otherDepsGraph 2) 3 = valOf otherDepsGraph 3 := by
  constructor
  · refine fusion_preserves_sharing.1 NdArr canFuseAny otherDepsGraph 2 1 (by decide) ?_
    refine ⟨unaryOp 3 1 negateA, ?_, by decide, by decide⟩
    exact List.mem_cons_of_mem _ (List.mem_cons_of_mem _
      (List.mem_cons_of_mem _ (List.mem_cons_self _ _)))
  · exact fusion_preserves_sharing.2.1 NdArr canFuseAny otherDepsGraph 2
      otherDepsGraph_WF 3 (by decide)

/-- C5: the fan-in cap.  On the 8-leaf balanced binary fan-in tree,
multi-level fusion with the default limit of 4 distinct source arrays fuses
exactly one level, producing two 4-ary fused nodes feeding the binary root;
with the limit raised to 8, or under the fuse-all policy (which has no
limit), the whole tree collapses into one 8-ary node. -/
theorem fan_in_cap :
    defaultMaxTotalSourceArrays = 4 ∧
    structOf (multipleInputsOptimizeDag defaultMaxTotalSourceArrays fanInTree)
        = [(0, []), (1, []), (2, []), (3, []), (4, []), (5, []), (6, []), (7, []),
           (12, [0, 1, 2, 3]), (13, [4, 5, 6, 7]), (14, [12, 13])] ∧
    structOf (multipleInputsOptimizeDag 8 fanInTree)
        = [(0, []), (1, []), (2, []), (3, []), (4, []), (5, []), (6, []), (7, []),
           (14, [0, 1, 2, 3, 4, 5, 6, 7])] ∧
    structOf (fuseAllOptimizeDag fanInTree)
        = [(0, []), (1, []), (2, []), (3, []), (4, []), (5, []), (6, []), (7, []),
           (14, [0, 1, 2, 3, 4, 5, 6, 7])] := by
  refine ⟨rfl, by decide, by decide, by decide⟩

/-- C6 counterexample: the claim "a node with two parallel edges to the same
predecessor is never fused by any fusion optimization pass" is false on the
repository's own `test_fuse_repeated_argument` graph (`b = -a`,
`c = b + b`): the `fuse_predecessors` pass does fuse the node with the
parallel edges, rewriting `c` to read `a` twice and deleting `b`. -/
theorem repeated_argument_fused_counterexample :
    structOf repeatedArgGraph = [(0, []), (1, [0]), (2, [1, 1])] ∧
    structOf (fusePredecessorsModel repeatedArgGraph 2) = [(0, []), (2, [0, 0])] ∧
    structOf (fusePredecessorsModel repeatedArgGraph 2) ≠ structOf repeatedArgGraph := by
  refine ⟨by decide, by decide, by decide⟩

/-- C6 (amended): a node with parallel edges to the same predecessor is
never fused by the simple single-level pass (`simple_optimize_dag`), whose
single-in-edge guard rejects any op consuming an array twice; the
predecessor-fusing passes do fuse such nodes, and preserve the computed
result while doing so. -/
theorem repeated_argument_simple_pass :
    (∀ (V : Type) (g : PGraph V) (c : POp V) (a : Nat),
        2 ≤ c.ins.count a → simpleCanFuse g c = false) ∧
    structOf (simpleOptimizeDag repeatedArgGraph) = structOf repeatedArgGraph ∧
    valOf (fusePredecessorsModel repeatedArgGraph 2) 2 = valOf repeatedArgGraph 2 := by
  refine ⟨?_, by decide, by decide⟩
  intro V g c a hcount
  have hlen : 2 ≤ c.ins.length := le_trans hcount (List.count_le_length a c.ins)
  unfold simpleCanFuse
  rcases hi : c.ins with _ | ⟨a1, _ | ⟨a2, rest⟩⟩
  · rw [hi] at hlen
    simp at hlen
  · rw [hi] at hlen
    simp at hlen
  · simp

theorem repeated_argument_simple_pass_witness :
    simpleCanFuse repeatedArgGraph (addZ 2 1 1) = false := by
  exact repeated_argument_simple_pass.1 Int repeatedArgGraph (addZ 2 1 1) 1 (by decide)

/-- C2: the blockwise memory fail-fast guarantee.  Whenever the projected
per-task memory (reserved overhead + per-input compressed and uncompressed
chunk footprints + output footprints + caller-declared extra) exceeds the
allowed budget, building the blockwise operation fails with the error naming
the projected, allowed and reserved values, and no operation — hence no
task — is ever produced; the violation cannot surface mid-run. -/
theorem blockwise_memory_fail_fast :
    ∀ (allowed reserved extra : Nat) (inputs : List (Nat × Nat)) (output : Nat × Nat)
      (numblocks : List Nat),
      projectedMem reserved inputs output extra > allowed →
      primBlockwiseModel allowed reserved inputs output extra numblocks
          = .error (.valueError
              (memExceededMsg (projectedMem reserved inputs output extra) allowed reserved)) ∧
      ∀ op, primBlockwiseModel allowed reserved inputs output extra numblocks ≠ .ok op := by
  intro allowed reserved extra inputs output numblocks h
  have herr : primBlockwiseModel allowed reserved inputs output extra numblocks
      = .error (.valueError
          (memExceededMsg (projectedMem reserved inputs output extra) allowed reserved)) := by
    unfold primBlockwiseModel
    rw [if_pos h]
  refine ⟨herr, ?_⟩
  intro op hok
  rw [herr] at hok
  cases hok

theorem blockwise_memory_fail_fast_witness :
    primBlockwiseModel 100 10 [(16, 16), (16, 16)] (32, 32) 0 [2, 2]
        = .error (.valueError (memExceededMsg 138 100 10)) ∧
    ∀ op, primBlockwiseModel 100 10 [(16, 16), (16, 16)] (32, 32) 0 [2, 2] ≠ .ok op := by
  have h := blockwise_memory_fail_fast 100 10 0 [(16, 16), (16, 16)] (32, 32) [2, 2]
    (by decide)
  exact ⟨h.1, h.2⟩

/-! ### Rechunk round-trip -/

theorem readElem_eq {α : Type} :
    ∀ (bs : List (List α)) (i : Nat), readElem bs i = bs.flatten[i]? := by
  intro bs
  induction bs with
  | nil => intro i; simp [readElem]
  | cons b rest ih =>
    intro i
    unfold readElem
    by_cases h : i < b.length
    · rw [if_pos h, List.flatten_cons, List.getElem?_append_left h]
    · rw [if_neg h, ih, List.flatten_cons,
        List.getElem?_append_right (Nat.le_of_not_lt h)]

theorem sliceRead_eq {α : Type} (bs : List (List α)) :
    ∀ (len off : Nat), off + len ≤ bs.flatten.length →
      sliceRead bs off len = some ((bs.flatten.drop off).take len) := by
  intro len
  induction len with
  | zero => intro off _; simp [sliceRead]
  | succ n ih =>
    intro off hle
    have hlt : off < bs.flatten.length := by omega
    unfold sliceRead
    rw [readElem_eq, List.getElem?_eq_getElem hlt, ih (off + 1) (by omega)]
    dsimp only
    congr 1
    rw [List.drop_eq_getElem_cons hlt, List.take_succ_cons]

theorem buildBlocks_eq {α : Type} (src : List (List α)) :
    ∀ (chunks : List Nat) (off : Nat),
      off + chunks.sum ≤ src.flatten.length →
      ∃ bs, buildBlocks src off chunks = some bs ∧
        bs.flatten = (src.flatten.drop off).take chunks.sum ∧
        bs.map List.length = chunks := by
  intro chunks
  induction chunks with
  | nil =>
    intro off _
    exact ⟨[], rfl, by simp, rfl⟩
  | cons n rest ih =>
    intro off hle
    rw [List.sum_cons] at hle
    have h1 : off + n ≤ src.flatten.length := by omega
    have hsl := sliceRead_eq src n off h1
    obtain ⟨bs, hbs, hfl, hlen⟩ := ih (off + n) (by omega)
    refine ⟨((src.flatten.drop off).take n) :: bs, ?_, ?_, ?_⟩
    · unfold buildBlocks
      rw [hsl, hbs]
    · rw [List.flatten_cons, hfl, List.sum_cons, List.take_add, List.drop_drop]
    · rw [List.map_cons, hlen]
      congr 1
      rw [List.length_take, List.length_drop]
      omega

theorem copyToChunks_eq {α : Type} (s : BStore α) (t : List Nat)
    (h : t.sum = (storeContents s).length) :
    ∃ m, copyToChunks s t = some m ∧ m.chunks = t ∧
      storeContents m = storeContents s ∧ m.blocks.map List.length = t := by
  have hle : 0 + t.sum ≤ s.blocks.flatten.length := by
    rw [Nat.zero_add, h]
    exact le_refl _
  obtain ⟨bs, hbs, hfl, hlen⟩ := buildBlocks_eq s.blocks t 0 hle
  refine ⟨⟨t, bs⟩, ?_, rfl, ?_, hlen⟩
  · unfold copyToChunks
    rw [hbs]
  · show bs.flatten = s.blocks.flatten
    rw [hfl, List.drop_zero]
    have : t.sum = s.blocks.flatten.length := h
    rw [this, List.take_length]

theorem blocks_eq_of_parts {α : Type} :
    ∀ (bs1 bs2 : List (List α)), bs1.map List.length = bs2.map List.length →
      bs1.flatten = bs2.flatten → bs1 = bs2 := by
  intro bs1
  induction bs1 with
  | nil =>
    intro bs2 hlen _
    cases bs2 with
    | nil => rfl
    | cons b2 r2 => cases hlen
  | cons b1 r1 ih =>
    intro bs2 hlen hfl
    cases bs2 with
    | nil => cases hlen
    | cons b2 r2 =>
      rw [List.map_cons, List.map_cons] at hlen
      have hl1 := List.cons.inj hlen
      rw [List.flatten_cons, List.flatten_cons] at hfl
      obtain ⟨hb, hr⟩ := List.append_inj hfl hl1.1
      rw [hb, ih r2 hl1.2 hr]

/-- C3: the rechunk round trip.  For any (well-formed) store, any valid
target chunking `X`, and any valid intermediate partitions, rechunking to
`X` (a two-stage copy through an intermediate) and then rechunking back to
the original chunking yields a store identical to the original — contents
and chunk structure; the intermediate store after the first rechunk has
chunking `X` and identical contents.  This covers the monolithic-chunk case
and the no-op case `X = s.chunks` (which still produces a correct copy). -/
theorem rechunk_round_trip {α : Type} (s : BStore α) (X i1 i2 : List Nat)
    (hwf : s.blocks.map List.length = s.chunks)
    (hX : X.sum = (storeContents s).length)
    (hi1 : i1.sum = (storeContents s).length)
    (hi2 : i2.sum = (storeContents s).length) :
    ∃ m r, rechunkModel s i1 X = some m ∧ m.chunks = X ∧
      storeContents m = storeContents s ∧
      rechunkModel m i2 s.chunks = some r ∧ r = s := by
  obtain ⟨m1, hm1, hc1, hs1, hl1⟩ := copyToChunks_eq s i1 hi1
  obtain ⟨m, hm, hcm, hsm, hlm⟩ := copyToChunks_eq m1 X (by rw [hs1]; exact hX)
  have hrm : rechunkModel s i1 X = some m := by
    unfold rechunkModel
    rw [hm1]
    dsimp only
    rw [hm]
  have hsm2 : storeContents m = storeContents s := hsm.trans hs1
  obtain ⟨m2, hm2, hc2, hs2, hl2⟩ := copyToChunks_eq m i2 (by rw [hsm2]; exact hi2)
  have hchsum : s.chunks.sum = (storeContents m2).length := by
    rw [hs2, hsm2, ← hwf]
    show (s.blocks.map List.length).sum = s.blocks.flatten.length
    rw [List.length_flatten]
  obtain ⟨r, hr, hcr, hsr, hlr⟩ := copyToChunks_eq m2 s.chunks hchsum
  have hrr : rechunkModel m i2 s.chunks = some r := by
    unfold rechunkModel
    rw [hm2]
    dsimp only
    rw [hr]
  have hreq : r = s := by
    have hblocks : r.blocks = s.blocks := by
      apply blocks_eq_of_parts
      · rw [hlr, ← hwf]
      · show storeContents r = storeContents s
        rw [hsr, hs2, hsm2]
    cases r with
    | mk rc rb =>
      cases s with
      | mk sc sb =>
        have hc : rc = sc := hcr
        have hb : rb = sb := hblocks
        rw [hc, hb]
  exact ⟨m, r, hrm, hcm, hsm2, hrr, hreq⟩

theorem rechunk_round_trip_witness :
    ∃ m r : BStore Int,
      rechunkModel ⟨[2, 1], [[10, 20], [30]]⟩ [1, 2] [3] = some m ∧
      m.chunks = [3] ∧
      storeContents m = storeContents (⟨[2, 1], [[10, 20], [30]]⟩ : BStore Int) ∧
      rechunkModel m [3] [2, 1] = some r ∧
      r = (⟨[2, 1], [[10, 20], [30]]⟩ : BStore Int) := by
  exact rechunk_round_trip (⟨[2, 1], [[10, 20], [30]]⟩ : BStore Int) [3] [1, 2] [3]
    (by decide) (by decide) (by decide) (by decide)

end Cubed
